import Mathlib

/-!
A verification development for the `dag` package: a shallow embedding of the
acyclic-graph algorithm layer (`AcyclicGraph` in the source) together with the
small graph-store interface it consumes, and proofs of the documented
properties of `Root`, `Descendants`, `Ancestors`, the five walk functions,
`TransitiveReduction` and the `Marshal` subgraph rewiring.

Machine integers do not occur in the source; vertices are opaque values, so
the embedding is parametric in a vertex type `V`.  The package-level
`hashcode` function (the dedup identity) is modelled as an explicit function
`hash : V → K`, following the spec: a vertex that exposes a custom hash value
uses it, any other vertex is its own key (for those, `hash` is the identity).
-/

namespace Dag

/-- Modelled from the spec: the external GraphStore collaborator (spec S6);
the code of `GraphBase` is not part of the repository sources.  It owns a
vertex list and a directed edge list; adjacency queries are derived from the
edge list.  List order stands for the (unspecified) enumeration order of the
store's collections. -/
structure Graph (V : Type) where
  vertices : List V
  edges : List (V × V)
deriving DecidableEq

variable {V K σ ε : Type}

/-- Modelled from the spec: `down_edges(v)`, the direct successors of `v`,
enumerated in edge-list order. -/
def downEdges [DecidableEq V] (g : Graph V) (v : V) : List V :=
  (g.edges.filter (fun e => decide (e.1 = v))).map Prod.snd

/-- Modelled from the spec: `up_edges(v)`, the direct predecessors of `v`. -/
def upEdges [DecidableEq V] (g : Graph V) (v : V) : List V :=
  (g.edges.filter (fun e => decide (e.2 = v))).map Prod.fst

/-- Modelled from the spec: `remove_edge(edge)` deletes the edge (all stored
copies of the ordered pair). -/
def removeEdge [DecidableEq V] (g : Graph V) (e : V × V) : Graph V :=
  { g with edges := g.edges.filter (fun x => decide (x ≠ e)) }

/-- Insert a vertex if it is not already stored. -/
def addVertex [DecidableEq V] (l : List V) (v : V) : List V :=
  if v ∈ l then l else l ++ [v]

/-- Modelled from the spec: `connect(edge)` adds both endpoints and the edge;
adding a duplicate edge has no effect. -/
def connect [DecidableEq V] (g : Graph V) (e : V × V) : Graph V :=
  { vertices := addVertex (addVertex g.vertices e.1) e.2,
    edges := if e ∈ g.edges then g.edges else g.edges ++ [e] }

/-- The one-step edge relation of a graph. -/
def ERel (g : Graph V) (a b : V) : Prop := (a, b) ∈ g.edges

/-- Reachability: zero or more forward edges. -/
def Reach (g : Graph V) : V → V → Prop := Relation.ReflTransGen (ERel g)

/-- Reachability by a non-empty forward path: one or more edges. -/
def ReachT (g : Graph V) : V → V → Prop := Relation.TransGen (ERel g)

/-- The acyclicity invariant assumed (not enforced) by the core. -/
def AcyclicG (g : Graph V) : Prop := ∀ v, ¬ ReachT g v v

/-- Modelled from the spec: lexicographic comparison of display names,
character by character on scalar values (string comparison). -/
def strLe : List Char → List Char → Bool
  | [], _ => true
  | _ :: _, [] => false
  | a :: s, b :: t => if a = b then strLe s t else decide (a < b)

/-- Insert into a sorted list, keeping earlier elements on ties. -/
def insertBy (le : α → α → Bool) (a : α) : List α → List α
  | [] => [a]
  | b :: l => if le a b then a :: b :: l else b :: insertBy le a l

/-- Insertion sort; stands for `sort.Sort` in the source (any correct sort
agrees with it on the name-distinct inputs the determinism claim is about). -/
def sortBy (le : α → α → Bool) : List α → List α
  | [] => []
  | a :: l => insertBy le a (sortBy le l)

/-- Modelled from the spec: `byVertexName` sorting, ascending by the display
name `VertexName` (modelled as an explicit function `name : V → String`). -/
def sortByName (name : V → String) (l : List V) : List V :=
  sortBy (fun a b => strLe (name a).data (name b).data) l

/--
The shared loop shape of the five walk functions of the source (spec S4.2):
an explicit frontier, a seen set of dedup keys, dedup at pop time, and a
caller visitor that may abort the walk with an error.  The Go loop carries no
fuel; `fuel` here bounds the number of loop iterations, and the returned
`Bool` records whether the loop ran to completion (sufficiency of an explicit
fuel is proved below).  The frontier list is kept most-recent-first (its head
is the top of the Go slice-stack); `fifo` selects the breadth-first queue
discipline instead, and `preExpand` selects pushing a vertex's adjacency
before invoking the visitor on it (the reverse walks) rather than after.
The visitor `f` threads the mutable state `s` (for `TransitiveReduction` and
`Marshal` this state is the graph being rewritten, which is why the adjacency
function `next` also reads it).  The walk additionally returns the sequence
of visitor invocations and the final seen set, which the Go code exposes only
through the visitor's side effects.
-/
def walkAux [DecidableEq K] (next : σ → V → List V) (key : V → K)
    (preExpand fifo : Bool) (f : σ → V → Nat → Except ε σ) :
    Nat → σ → List (V × Nat) → List K → List (V × Nat) →
    Except ε (σ × List (V × Nat) × List K × Bool)
  | _, s, [], seen, vis => .ok (s, vis, seen, true)
  | 0, s, _ :: _, seen, vis => .ok (s, vis, seen, false)
  | fuel + 1, s, (v, d) :: rest, seen, vis =>
    if key v ∈ seen then
      walkAux next key preExpand fifo f fuel s rest seen vis
    else if preExpand then
      let children := (next s v).map (fun w => (w, d + 1))
      let frontier := if fifo then rest ++ children else children.reverse ++ rest
      match f s v d with
      | .error e => .error e
      | .ok s1 =>
          walkAux next key preExpand fifo f fuel s1 frontier (key v :: seen) (vis ++ [(v, d)])
    else
      match f s v d with
      | .error e => .error e
      | .ok s1 =>
          let children := (next s1 v).map (fun w => (w, d + 1))
          let frontier := if fifo then rest ++ children else children.reverse ++ rest
          walkAux next key preExpand fifo f fuel s1 frontier (key v :: seen) (vis ++ [(v, d)])

/-- Fuel that is proved sufficient for any walk whose adjacency lists draw
from `pool` and have length at most `E`. -/
def walkFuel [DecidableEq K] (key : V → K) (pool : List V) (E : Nat)
    (start : List V) : Nat :=
  ((start ++ pool).map key).dedup.length * (E + 1) + start.length

/-- `DepthFirstWalk` of the source: stack, dedup by `hashcode`, adjacency
pushed after visiting.  The initial frontier holds the start enumeration with
its last element on top, as in the source's append-then-pop-from-the-end. -/
def DepthFirstWalk [DecidableEq K] (down : σ → V → List V) (hash : V → K)
    (fuel : Nat) (s : σ) (start : List V) (f : σ → V → Nat → Except ε σ) :
    Except ε (σ × List (V × Nat) × List K × Bool) :=
  walkAux down hash false false f fuel s ((start.map (fun v => (v, 0))).reverse) [] []

/-- `BreadthFirstWalk` of the source: the level-batched queue processes
entries first-in first-out, dedup by `hashcode`. -/
def BreadthFirstWalk [DecidableEq K] (down : σ → V → List V) (hash : V → K)
    (fuel : Nat) (s : σ) (start : List V) (f : σ → V → Nat → Except ε σ) :
    Except ε (σ × List (V × Nat) × List K × Bool) :=
  walkAux down hash false true f fuel s (start.map (fun v => (v, 0))) [] []

/-- `ReverseDepthFirstWalk` of the source: stack over incoming adjacency,
dedup by the raw vertex value, adjacency pushed before visiting. -/
def ReverseDepthFirstWalk [DecidableEq V] (up : σ → V → List V)
    (fuel : Nat) (s : σ) (start : List V) (f : σ → V → Nat → Except ε σ) :
    Except ε (σ × List (V × Nat) × List V × Bool) :=
  walkAux up (fun v => v) true false f fuel s
    ((start.map (fun v => (v, 0))).reverse) [] []

/-- `SortedDepthFirstWalk` of the source: stack, dedup by the raw vertex
value, adjacency sorted by display name before being pushed (after the
visit). -/
def SortedDepthFirstWalk [DecidableEq V] (name : V → String)
    (down : σ → V → List V) (fuel : Nat) (s : σ) (start : List V)
    (f : σ → V → Nat → Except ε σ) :
    Except ε (σ × List (V × Nat) × List V × Bool) :=
  walkAux (fun s1 v => sortByName name (down s1 v)) (fun v => v) false false f
    fuel s ((start.map (fun v => (v, 0))).reverse) [] []

/-- `SortedReverseDepthFirstWalk` of the source: stack over incoming
adjacency sorted by display name, pushed before the visit, dedup by the raw
vertex value. -/
def SortedReverseDepthFirstWalk [DecidableEq V] (name : V → String)
    (up : σ → V → List V) (fuel : Nat) (s : σ) (start : List V)
    (f : σ → V → Nat → Except ε σ) :
    Except ε (σ × List (V × Nat) × List V × Bool) :=
  walkAux (fun s1 v => sortByName name (up s1 v)) (fun v => v) true false f
    fuel s ((start.map (fun v => (v, 0))).reverse) [] []

/-- Modelled from the spec: `Set.Add` keyed by vertex identity (the dedup
authority); adding an already-present member has no effect. -/
def setAdd [DecidableEq V] (s : List V) (v : V) : List V :=
  if v ∈ s then s else s ++ [v]

/-- `Descendants` of the source: every vertex yielded by walking down from
the direct successors of `v`, collected by a memo visitor that never fails. -/
def Descendants [DecidableEq V] [DecidableEq K] (hash : V → K) (g : Graph V)
    (v : V) : Except ε (List V) :=
  match DepthFirstWalk (fun _ w => downEdges g w) hash
      (walkFuel hash (g.edges.map Prod.snd) g.edges.length (downEdges g v))
      [] (downEdges g v) (fun s w _d => .ok (setAdd s w)) with
  | .ok (s, _, _, _) => .ok s
  | .error e => .error e

/-- `Ancestors` of the source: every vertex yielded by walking up from the
direct predecessors of `v`. -/
def Ancestors [DecidableEq V] (g : Graph V) (v : V) : Except ε (List V) :=
  match ReverseDepthFirstWalk (fun _ w => upEdges g w)
      (walkFuel (fun x => x) (g.edges.map Prod.fst) g.edges.length (upEdges g v))
      [] (upEdges g v) (fun s w _d => .ok (setAdd s w)) with
  | .ok (s, _, _, _) => .ok s
  | .error e => .error e

/-- `Descendants` with the value-identity hash and no failure channel. -/
def descendantsSet [DecidableEq V] (g : Graph V) (v : V) : List V :=
  match Descendants (ε := Empty) (fun x => x) g v with
  | .ok s => s
  | .error e => e.elim

/-- The two failure kinds of `Root`: several zero-indegree vertices
(reported) or none. -/
inductive RootError (V : Type) where
  | multipleRoots (roots : List V)
  | noRoots
deriving DecidableEq

/-- `Root` of the source: collect the vertices with no incoming edge; fail
when there are several (reporting them) or none. -/
def Root [DecidableEq V] (g : Graph V) : Except (RootError V) V :=
  let roots := g.vertices.filter (fun v => decide ((upEdges g v).length = 0))
  if roots.length > 1 then .error (.multipleRoots roots)
  else
    match roots with
    | [] => .error .noRoots
    | r :: _ => .ok r

/-- The visitor `TransitiveReduction` passes to its inner depth-first walk:
intersect the live direct-successor set of `u` with the successors of the
visited vertex `v` and remove the shared targets as direct edges of `u`. -/
def trVisit [DecidableEq V] (u : V) (s : Graph V) (v : V) : Graph V :=
  let shared := (downEdges s u).filter (fun w => decide (w ∈ downEdges s v))
  shared.foldl (fun s1 w => removeEdge s1 (u, w)) s

/-- One outer iteration of `TransitiveReduction`: walk down from the direct
successors of `u`, removing the redundant direct edges of `u` as the walk
visits; the walk reads the graph being mutated. -/
def trStep [DecidableEq V] [DecidableEq K] (hash : V → K) (s : Graph V)
    (u : V) : Graph V :=
  match DepthFirstWalk (fun s1 v => downEdges s1 v) hash
      (walkFuel hash (s.edges.map Prod.snd) s.edges.length (downEdges s u))
      s (downEdges s u)
      (fun s1 v _d => (.ok (trVisit u s1 v) : Except Empty (Graph V))) with
  | .ok (s1, _, _, _) => s1
  | .error e => e.elim

/-- `TransitiveReduction` of the source: for each vertex `u`, remove every
direct edge of `u` whose target is also reachable through a longer path. -/
def TransitiveReduction [DecidableEq V] [DecidableEq K] (hash : V → K)
    (g : Graph V) : Graph V :=
  g.vertices.foldl (fun s u => trStep hash s u) g

/-- `MarshalOpts` of the source (only the rewiring flags matter to the
core). -/
structure MarshalOpts where
  ConnectSubgraphHeads : Bool := false
  ConnectSubgraphTails : Bool := false

/-- The body of `Marshal`'s rewiring loop for a single snapshot edge.
`subg v` is the nested acyclic graph of `v` when `v` implements
`HasSubgraph` (and wraps an `AcyclicGraph`); `none` models `log.Fatalf`
aborting the export when a nested root is not unique. -/
def marshalEdge [DecidableEq V] (subg : V → Option (Graph V))
    (opts : MarshalOpts) (ag : Graph V) (edge : V × V) : Option (Graph V) := do
  let source := edge.1
  let target := edge.2
  let ag1 ←
    if opts.ConnectSubgraphHeads then
      match subg target with
      | some acyclicSubgraph =>
          match Root acyclicSubgraph with
          | .error _ => none
          | .ok subgraphRoot => some (removeEdge (connect ag (source, subgraphRoot)) edge)
      | none => some ag
    else some ag
  if opts.ConnectSubgraphTails then
    match subg source with
    | some acyclicSubgraph =>
        match Root acyclicSubgraph with
        | .error _ => none
        | .ok subgraphRoot =>
            match DepthFirstWalk (fun _ w => downEdges acyclicSubgraph w) (fun x => x)
                (walkFuel (fun x => x) (acyclicSubgraph.edges.map Prod.snd)
                  acyclicSubgraph.edges.length [subgraphRoot])
                ag1 [subgraphRoot]
                (fun s downWalkVertex _depth =>
                  (.ok (if (descendantsSet acyclicSubgraph downWalkVertex).length = 0 then
                      removeEdge (connect s (downWalkVertex, target)) edge
                    else s) : Except Empty (Graph V))) with
            | .ok (s1, _, _, _) => some s1
            | .error e => e.elim
    | none => some ag1
  else some ag1

/-- The rewiring phase of `Marshal` (spec S4.5): iterate a snapshot of the
edge list, rewiring edges into a subgraph-wrapping vertex to the subgraph's
root and edges out of one to the subgraph's leaves.  The final hand-off to
the external `GraphBase.Marshal` renderer is outside the core and leaves the
edge set unchanged, so the result here is the rewired graph itself. -/
def Marshal [DecidableEq V] (subg : V → Option (Graph V)) (opts : MarshalOpts)
    (ag : Graph V) : Option (Graph V) :=
  ag.edges.foldlM (fun s edge => marshalEdge subg opts s edge) ag

/-- The vertex type of the multi-subgraph test scenario
(`createConnectedMultiSubgraph` in the repository's tests). -/
inductive MV where
  | itemOne
  | itemTwo
  | subgraphOne
  | itemFive
  | itemThree
  | itemFour
deriving DecidableEq

/-- The inner acyclic graph wrapped by `subgraphOne`. -/
def innerMV : Graph MV :=
  ⟨[MV.itemThree, MV.itemFour], [(MV.itemThree, MV.itemFour)]⟩

/-- The outer graph of the scenario: itemOne→itemTwo→subgraphOne→itemFive. -/
def outerMV : Graph MV :=
  ⟨[MV.itemOne, MV.itemTwo, MV.subgraphOne, MV.itemFive],
   [(MV.itemOne, MV.itemTwo), (MV.itemTwo, MV.subgraphOne),
    (MV.subgraphOne, MV.itemFive)]⟩

/-- `subgraphOne` wraps the inner graph; no other vertex has one. -/
def subgraphOfMV : MV → Option (Graph MV) :=
  fun v => if v = MV.subgraphOne then some innerMV else none

/-- A direct edge `(u, w)` is redundant when a longer path `u → … → v → w`
exists: this is exactly the removal condition of `TransitiveReduction`. -/
def RedundantEdge (s : Graph V) (u w : V) : Prop :=
  ∃ v, ReachT s u v ∧ (v, w) ∈ s.edges

/-! ## Basic facts about the graph-store model -/

theorem mem_downEdges [DecidableEq V] {g : Graph V} {v w : V} :
    w ∈ downEdges g v ↔ (v, w) ∈ g.edges := by
  simp only [downEdges, List.mem_map, List.mem_filter, decide_eq_true_eq]
  constructor
  · rintro ⟨⟨a, b⟩, ⟨hm, he⟩, hw⟩
    cases he; cases hw; exact hm
  · intro hm
    exact ⟨(v, w), ⟨hm, rfl⟩, rfl⟩

theorem mem_upEdges [DecidableEq V] {g : Graph V} {v w : V} :
    w ∈ upEdges g v ↔ (w, v) ∈ g.edges := by
  simp only [upEdges, List.mem_map, List.mem_filter, decide_eq_true_eq]
  constructor
  · rintro ⟨⟨a, b⟩, ⟨hm, he⟩, hw⟩
    cases he; cases hw; exact hm
  · intro hm
    exact ⟨(w, v), ⟨hm, rfl⟩, rfl⟩

theorem length_downEdges_le [DecidableEq V] (g : Graph V) (v : V) :
    (downEdges g v).length ≤ g.edges.length := by
  simpa [downEdges] using List.length_filter_le _ g.edges

theorem downEdges_subset_targets [DecidableEq V] {g : Graph V} {v w : V}
    (h : w ∈ downEdges g v) : w ∈ g.edges.map Prod.snd :=
  List.mem_map.2 ⟨(v, w), mem_downEdges.1 h, rfl⟩

theorem length_upEdges_le [DecidableEq V] (g : Graph V) (v : V) :
    (upEdges g v).length ≤ g.edges.length := by
  simpa [upEdges] using List.length_filter_le _ g.edges

theorem upEdges_subset_sources [DecidableEq V] {g : Graph V} {v w : V}
    (h : w ∈ upEdges g v) : w ∈ g.edges.map Prod.fst :=
  List.mem_map.2 ⟨(w, v), mem_upEdges.1 h, rfl⟩

theorem mem_removeEdge_edges [DecidableEq V] {g : Graph V} {e x : V × V} :
    x ∈ (removeEdge g e).edges ↔ x ∈ g.edges ∧ x ≠ e := by
  simp [removeEdge, List.mem_filter]

theorem removeEdge_vertices [DecidableEq V] (g : Graph V) (e : V × V) :
    (removeEdge g e).vertices = g.vertices := rfl

/-- A rank function that strictly increases along every edge certifies
acyclicity (used to discharge acyclicity at concrete witnesses). -/
theorem reachT_rank_lt {g : Graph V} {rank : V → Nat}
    (h : ∀ e ∈ g.edges, rank e.1 < rank e.2) {a b : V} (hr : ReachT g a b) :
    rank a < rank b := by
  induction hr with
  | single hab => exact h _ hab
  | tail _ hbc ih => exact lt_trans ih (h _ hbc)

theorem acyclicG_of_rank {g : Graph V} (rank : V → Nat)
    (h : ∀ e ∈ g.edges, rank e.1 < rank e.2) : AcyclicG g := by
  intro v hv
  exact lt_irrefl _ (reachT_rank_lt h hv)

/-- A graph whose edges form a subset of an acyclic graph's is acyclic. -/
theorem acyclicG_mono {g h : Graph V} (hsub : ∀ e ∈ h.edges, e ∈ g.edges)
    (hg : AcyclicG g) : AcyclicG h := by
  intro v hv
  exact hg v (Relation.TransGen.mono (fun a b hab => hsub (a, b) hab) hv)

theorem reach_mono {g h : Graph V} (hsub : ∀ e ∈ h.edges, e ∈ g.edges)
    {a b : V} (hr : Reach h a b) : Reach g a b :=
  Relation.ReflTransGen.mono (fun a b hab => hsub (a, b) hab) hr

theorem reachT_mono {g h : Graph V} (hsub : ∀ e ∈ h.edges, e ∈ g.edges)
    {a b : V} (hr : ReachT h a b) : ReachT g a b :=
  Relation.TransGen.mono (fun a b hab => hsub (a, b) hab) hr

theorem reachT_ne {g : Graph V} (hg : AcyclicG g) {a b : V}
    (hr : ReachT g a b) : a ≠ b := by
  rintro rfl
  exact hg a hr

/-- Non-empty reachability factors through a direct successor. -/
theorem reachT_iff_downEdges [DecidableEq V] {g : Graph V} {u x : V} :
    ReachT g u x ↔ ∃ s ∈ downEdges g u, Reach g s x := by
  constructor
  · intro h
    rcases Relation.TransGen.head'_iff.1 h with ⟨b, hub, hbx⟩
    exact ⟨b, mem_downEdges.2 hub, hbx⟩
  · rintro ⟨s, hs, hsx⟩
    exact Relation.TransGen.head'_iff.2 ⟨s, mem_downEdges.1 hs, hsx⟩

theorem reachT_iff_upEdges [DecidableEq V] {g : Graph V} {u x : V} :
    ReachT g x u ↔ ∃ s ∈ upEdges g u, Reach g x s := by
  constructor
  · intro h
    rcases Relation.TransGen.tail'_iff.1 h with ⟨b, hxb, hbu⟩
    exact ⟨b, mem_upEdges.2 hbu, hxb⟩
  · rintro ⟨s, hs, hxs⟩
    exact Relation.TransGen.tail'_iff.2 ⟨s, hxs, mem_upEdges.1 hs⟩

/-! ## Generic facts about the walk loop -/

/-- A walk whose visitor never fails returns a result (the only failure
channel of the engine is the visitor). -/
theorem walkAux_isOk [DecidableEq K] {next : σ → V → List V} {key : V → K}
    {pre fifo : Bool} {f : σ → V → Nat → Except ε σ}
    (hf : ∀ s v d, ∃ s1, f s v d = Except.ok s1) :
    ∀ fuel s frontier seen vis, ∃ out,
      walkAux next key pre fifo f fuel s frontier seen vis = Except.ok out := by
  intro fuel
  induction fuel with
  | zero =>
    intro s frontier seen vis
    cases frontier with
    | nil => exact ⟨_, rfl⟩
    | cons p rest => obtain ⟨v, d⟩ := p; exact ⟨_, rfl⟩
  | succ n ih =>
    intro s frontier seen vis
    cases frontier with
    | nil => exact ⟨_, rfl⟩
    | cons p rest =>
      obtain ⟨v, d⟩ := p
      by_cases hs : key v ∈ seen
      · simpa [walkAux, hs] using ih s rest seen vis
      · obtain ⟨s1, hs1⟩ := hf s v d
        cases pre
        · simp only [walkAux, hs, if_false, if_true, Bool.false_eq_true, ite_false, hs1]
          exact ih _ _ _ _
        · simp only [walkAux, hs, if_false, if_true, ite_true, hs1]
          exact ih _ _ _ _

/-- Shape of a completed-or-aborted-without-error walk: the visit sequence
extends the accumulator, the seen set records exactly the keys of the new
visits (most recent first), no key is visited twice, and no visit carries a
key that was already seen. -/
theorem walkAux_shape [DecidableEq K] {next : σ → V → List V} {key : V → K}
    {pre fifo : Bool} {f : σ → V → Nat → Except ε σ} :
    ∀ fuel s frontier seen vis {s1 vis1 seen1 b},
      walkAux next key pre fifo f fuel s frontier seen vis =
        Except.ok (s1, vis1, seen1, b) →
      ∃ ext, vis1 = vis ++ ext ∧
        seen1 = (ext.map (fun p => key p.1)).reverse ++ seen ∧
        (ext.map (fun p => key p.1)).Nodup ∧
        ∀ p ∈ ext, key p.1 ∉ seen := by
  intro fuel
  induction fuel with
  | zero =>
    intro s frontier seen vis s1 vis1 seen1 b h
    cases frontier with
    | nil =>
      simp only [walkAux, Except.ok.injEq, Prod.mk.injEq] at h
      exact ⟨[], by simp [← h.2.1, ← h.2.2.1]⟩
    | cons p rest =>
      obtain ⟨v, d⟩ := p
      simp only [walkAux, Except.ok.injEq, Prod.mk.injEq] at h
      exact ⟨[], by simp [← h.2.1, ← h.2.2.1]⟩
  | succ n ih =>
    intro s frontier seen vis s1 vis1 seen1 b h
    cases frontier with
    | nil =>
      simp only [walkAux, Except.ok.injEq, Prod.mk.injEq] at h
      exact ⟨[], by simp [← h.2.1, ← h.2.2.1]⟩
    | cons p rest =>
      obtain ⟨v, d⟩ := p
      by_cases hs : key v ∈ seen
      · simp only [walkAux, hs, if_true] at h
        exact ih _ _ _ _ h
      · have step :
            ∀ s1', f s v d = Except.ok s1' →
            (∃ frontier', walkAux next key pre fifo f n s1' frontier'
              (key v :: seen) (vis ++ [(v, d)]) =
                Except.ok (s1, vis1, seen1, b)) →
            ∃ ext, vis1 = vis ++ ext ∧
              seen1 = (ext.map (fun p => key p.1)).reverse ++ seen ∧
              (ext.map (fun p => key p.1)).Nodup ∧
              ∀ p ∈ ext, key p.1 ∉ seen := by
          rintro s1' hf1 ⟨frontier', hrec⟩
          obtain ⟨ext, hvis, hseen, hnd, hnotin⟩ := ih _ _ _ _ hrec
          refine ⟨(v, d) :: ext, by simpa using hvis, ?_, ?_, ?_⟩
          · simp only [List.map_cons, List.reverse_cons, List.append_assoc,
              List.singleton_append] at hseen ⊢
            exact hseen
          · have hkv : key v ∉ ext.map (fun p => key p.1) := by
              intro hmem
              obtain ⟨q, hq, hqk⟩ := List.mem_map.1 hmem
              exact hnotin q hq (by simp [hqk])
            exact List.nodup_cons.2 ⟨hkv, hnd⟩
          · intro q hq
            rcases List.mem_cons.1 hq with rfl | hq'
            · exact hs
            · intro hmem
              exact hnotin q hq' (List.mem_cons_of_mem _ hmem)
        cases hf1 : f s v d with
        | error e =>
          cases pre <;>
            · simp only [walkAux, hs, if_false, if_true, ite_true,
                ite_false, Bool.false_eq_true, hf1] at h
              exact Except.noConfusion h
        | ok s1' =>
          cases pre
          · simp only [walkAux, hs, if_false, Bool.false_eq_true, ite_false, hf1] at h
            exact step s1' hf1 ⟨_, h⟩
          · simp only [walkAux, hs, if_false, if_true, ite_true, hf1] at h
            exact step s1' hf1 ⟨_, h⟩

/-- Membership in a frontier after a push, for either frontier discipline. -/
theorem mem_pushed {fifo : Bool} {rest c : List α} {p : α}
    (h : p ∈ (if fifo then rest ++ c else c.reverse ++ rest)) :
    p ∈ rest ∨ p ∈ c := by
  cases fifo
  all_goals simp at h
  all_goals tauto

theorem length_pushed {fifo : Bool} (rest c : List α) :
    (if fifo then rest ++ c else c.reverse ++ rest).length =
      rest.length + c.length := by
  cases fifo
  all_goals simp
  all_goals omega

/-- A walk with a pure state-accumulating visitor computes the fold of the
visitor over the visit sequence. -/
theorem walkAux_fold [DecidableEq K] {next : σ → V → List V} {key : V → K}
    {pre fifo : Bool} {h : σ → V → Nat → σ} :
    ∀ fuel s frontier seen vis {s1 vis1 seen1 b},
      walkAux next key pre fifo
          (fun s v d => (Except.ok (h s v d) : Except ε σ))
          fuel s frontier seen vis = Except.ok (s1, vis1, seen1, b) →
      ∀ ext, vis1 = vis ++ ext →
        s1 = ext.foldl (fun s p => h s p.1 p.2) s := by
  intro fuel
  induction fuel with
  | zero =>
    intro s frontier seen vis s1 vis1 seen1 b hw ext hext
    have hbase : s1 = s ∧ vis1 = vis := by
      cases frontier with
      | nil =>
        simp only [walkAux, Except.ok.injEq, Prod.mk.injEq] at hw
        exact ⟨hw.1.symm, hw.2.1.symm⟩
      | cons p rest =>
        obtain ⟨v, d⟩ := p
        simp only [walkAux, Except.ok.injEq, Prod.mk.injEq] at hw
        exact ⟨hw.1.symm, hw.2.1.symm⟩
    obtain ⟨rfl, hv⟩ := hbase
    have : ext = [] := by
      have hlen := congrArg List.length (hv.symm.trans hext)
      simp at hlen
      exact hlen
    simp [this]
  | succ n ih =>
    intro s frontier seen vis s1 vis1 seen1 b hw ext hext
    cases frontier with
    | nil =>
      simp only [walkAux, Except.ok.injEq, Prod.mk.injEq] at hw
      obtain ⟨rfl, hv⟩ : s1 = s ∧ vis1 = vis := ⟨hw.1.symm, hw.2.1.symm⟩
      have : ext = [] := by
        have hlen := congrArg List.length (hv.symm.trans hext)
        simp at hlen
        exact hlen
      simp [this]
    | cons p rest =>
      obtain ⟨v, d⟩ := p
      by_cases hs : key v ∈ seen
      · simp only [walkAux, hs, if_true] at hw
        exact ih _ _ _ _ hw ext hext
      · have step :
            ∀ frontier',
              walkAux next key pre fifo
                  (fun s v d => (Except.ok (h s v d) : Except ε σ))
                  n (h s v d) frontier' (key v :: seen) (vis ++ [(v, d)]) =
                Except.ok (s1, vis1, seen1, b) →
              s1 = ext.foldl (fun s p => h s p.1 p.2) s := by
          intro frontier' hrec
          obtain ⟨ext', hvis', _, _, _⟩ := walkAux_shape _ _ _ _ _ hrec
          have hext' : ext = (v, d) :: ext' := by
            apply @List.append_cancel_left _ vis
            rw [← hext, hvis']
            simp
          have := ih _ _ _ _ hrec ext' (by simpa using hvis')
          simp [hext', this]
        cases pre
        · simp only [walkAux, hs, if_false, Bool.false_eq_true, ite_false] at hw
          exact step _ hw
        · simp only [walkAux, hs, if_false, if_true, ite_true] at hw
          exact step _ hw

/-- Soundness of a walk over a fixed adjacency function: every visited vertex
lies in any step-closed predicate holding on the frontier. -/
theorem walkAux_sound [DecidableEq K] {N : V → List V} {key : V → K}
    {pre fifo : Bool} {f : σ → V → Nat → Except ε σ} {R : V → Prop}
    (hclosed : ∀ v w, R v → w ∈ N v → R w) :
    ∀ fuel s frontier seen vis {s1 vis1 seen1 b},
      walkAux (fun _ v => N v) key pre fifo f fuel s frontier seen vis =
        Except.ok (s1, vis1, seen1, b) →
      (∀ p ∈ frontier, R p.1) → (∀ p ∈ vis, R p.1) →
      ∀ p ∈ vis1, R p.1 := by
  intro fuel
  induction fuel with
  | zero =>
    intro s frontier seen vis s1 vis1 seen1 b hw hfr hvis p hp
    have hv : vis1 = vis := by
      cases frontier with
      | nil =>
        simp only [walkAux, Except.ok.injEq, Prod.mk.injEq] at hw
        exact hw.2.1.symm
      | cons q rest =>
        obtain ⟨v, d⟩ := q
        simp only [walkAux, Except.ok.injEq, Prod.mk.injEq] at hw
        exact hw.2.1.symm
    exact hvis p (hv ▸ hp)
  | succ n ih =>
    intro s frontier seen vis s1 vis1 seen1 b hw hfr hvis p hp
    cases frontier with
    | nil =>
      simp only [walkAux, Except.ok.injEq, Prod.mk.injEq] at hw
      exact hvis p (hw.2.1.symm ▸ hp)
    | cons q rest =>
      obtain ⟨v, d⟩ := q
      have hRv : R v := hfr (v, d) (List.mem_cons_self _ _)
      have hrest : ∀ p ∈ rest, R p.1 := fun p hp =>
        hfr p (List.mem_cons_of_mem _ hp)
      have hfr' : ∀ (frontier' : List (V × Nat)),
          frontier' = (if fifo then rest ++ (N v).map (fun w => (w, d + 1))
            else ((N v).map (fun w => (w, d + 1))).reverse ++ rest) →
          ∀ p ∈ frontier', R p.1 := by
        rintro _ rfl p hp
        rcases mem_pushed hp with hp | hp
        · exact hrest p hp
        · obtain ⟨w, hw', rfl⟩ := List.mem_map.1 hp
          exact hclosed v w hRv hw'
      by_cases hs : key v ∈ seen
      · simp only [walkAux, hs, if_true] at hw
        exact ih _ _ _ _ hw hrest hvis p hp
      · have hvis' : ∀ p ∈ vis ++ [(v, d)], R p.1 := by
          intro p hp
          rcases List.mem_append.1 hp with hp | hp
          · exact hvis p hp
          · simp at hp
            simp [hp, hRv]
        cases hf1 : f s v d with
        | error e =>
          cases pre <;>
            · simp only [walkAux, hs, if_false, if_true, ite_true, ite_false,
                Bool.false_eq_true, hf1] at hw
              exact Except.noConfusion hw
        | ok s1' =>
          cases pre
          · simp only [walkAux, hs, if_false, Bool.false_eq_true, ite_false,
              hf1] at hw
            exact ih _ _ _ _ hw (hfr' _ rfl) hvis' p hp
          · simp only [walkAux, hs, if_false, if_true, ite_true, hf1] at hw
            exact ih _ _ _ _ hw (hfr' _ rfl) hvis' p hp

/-- A walk whose adjacency function reads the threaded state agrees with the
walk over a fixed adjacency function, as long as a state invariant `P` and a
vertex predicate `R` covering the frontier guarantee the two agree. -/
theorem walkAux_next_congr [DecidableEq K] {next : σ → V → List V}
    {N : V → List V} {key : V → K} {pre fifo : Bool}
    {f : σ → V → Nat → Except ε σ} {P : σ → Prop} {R : V → Prop}
    (hnext : ∀ s v, P s → R v → next s v = N v)
    (hf : ∀ s v d s1, P s → R v → f s v d = Except.ok s1 → P s1)
    (hclosed : ∀ v w, R v → w ∈ N v → R w) :
    ∀ fuel s frontier seen vis, P s → (∀ p ∈ frontier, R p.1) →
      walkAux next key pre fifo f fuel s frontier seen vis =
        walkAux (fun _ v => N v) key pre fifo f fuel s frontier seen vis := by
  intro fuel
  induction fuel with
  | zero =>
    intro s frontier seen vis hP hfr
    cases frontier with
    | nil => rfl
    | cons p rest => obtain ⟨v, d⟩ := p; rfl
  | succ n ih =>
    intro s frontier seen vis hP hfr
    cases frontier with
    | nil => rfl
    | cons p rest =>
      obtain ⟨v, d⟩ := p
      have hRv : R v := hfr (v, d) (List.mem_cons_self _ _)
      have hrest : ∀ p ∈ rest, R p.1 := fun p hp =>
        hfr p (List.mem_cons_of_mem _ hp)
      have hfr' : ∀ p ∈ (if fifo then rest ++ (N v).map (fun w => (w, d + 1))
          else ((N v).map (fun w => (w, d + 1))).reverse ++ rest), R p.1 := by
        intro p hp
        rcases mem_pushed hp with hp | hp
        · exact hrest p hp
        · obtain ⟨w, hw', rfl⟩ := List.mem_map.1 hp
          exact hclosed v w hRv hw'
      by_cases hs : key v ∈ seen
      · simp only [walkAux, hs, if_true]
        exact ih _ _ _ _ hP hrest
      · cases hf1 : f s v d with
        | error e =>
          cases pre <;>
            simp only [walkAux, hs, if_false, if_true, ite_true, ite_false,
              Bool.false_eq_true, hf1, hnext s v hP hRv]
        | ok s1 =>
          have hP1 : P s1 := hf s v d s1 hP hRv hf1
          cases pre
          · simp only [walkAux, hs, if_false, Bool.false_eq_true, ite_false,
              hf1, hnext s1 v hP1 hRv]
            exact ih _ _ _ _ hP1 hfr'
          · simp only [walkAux, hs, if_false, if_true, ite_true, hf1,
              hnext s v hP hRv]
            exact ih _ _ _ _ hP1 hfr'

/-- Extending the seen set can only shrink the count of unseen keys. -/
theorem length_filter_cons_le [DecidableEq K] (A seen : List K) (a : K) :
    (A.filter (fun x => decide (x ∉ a :: seen))).length ≤
      (A.filter (fun x => decide (x ∉ seen))).length := by
  induction A with
  | nil => simp
  | cons b B ihB =>
    by_cases hb1 : (decide (b ∉ a :: seen)) = true
    · have hb2 : (decide (b ∉ seen)) = true := by
        simp only [decide_eq_true_eq, List.mem_cons, not_or] at hb1 ⊢
        exact hb1.2
      simp only [List.filter_cons, hb1, hb2, if_true, List.length_cons]
      omega
    · rw [Bool.not_eq_true] at hb1
      by_cases hb2 : (decide (b ∉ seen)) = true
      · simp only [List.filter_cons, hb1, hb2, Bool.false_eq_true, if_false,
          if_true, List.length_cons]
        exact le_trans ihB (Nat.le_succ _)
      · rw [Bool.not_eq_true] at hb2
        simp only [List.filter_cons, hb1, hb2, Bool.false_eq_true, if_false]
        exact ihB

/-- Seeing one more key strictly shrinks the count of unseen keys drawn from
a pool containing it. -/
theorem length_filter_cons_lt [DecidableEq K] {A seen : List K} {k : K}
    (hkA : k ∈ A) (hk : k ∉ seen) :
    (A.filter (fun x => decide (x ∉ k :: seen))).length + 1 ≤
      (A.filter (fun x => decide (x ∉ seen))).length := by
  induction A with
  | nil => cases hkA
  | cons a A ih =>
    by_cases hak : a = k
    · subst hak
      have h1 : (decide (a ∉ a :: seen)) = false := by simp
      have h2 : (decide (a ∉ seen)) = true := by simpa using hk
      simp only [List.filter_cons, h1, h2, if_false, if_true,
        Bool.false_eq_true, List.length_cons]
      have hmono := length_filter_cons_le A seen a
      omega
    · rcases List.mem_cons.1 hkA with h | hkA'
      · exact absurd h.symm hak
      · by_cases ha : a ∈ seen
        · have h1 : (decide (a ∉ k :: seen)) = false := by simp [ha]
          have h2 : (decide (a ∉ seen)) = false := by simpa using ha
          simp only [List.filter_cons, h1, h2, Bool.false_eq_true, if_false]
          exact ih hkA'
        · have h1 : (decide (a ∉ k :: seen)) = true := by simp [hak, ha]
          have h2 : (decide (a ∉ seen)) = true := by simpa using ha
          simp only [List.filter_cons, h1, h2, if_true, List.length_cons]
          have := ih hkA'
          omega

/-- Fuel sufficiency: with fuel at least `(unseen keys) * (E + 1) + frontier
length`, a walk whose visitor never fails and whose adjacency lists stay
within the pool `A` and length bound `E` runs to completion.  This is the
termination argument of the Go loop: dedup bounds the number of visits. -/
theorem walkAux_complete [DecidableEq K] {next : σ → V → List V} {key : V → K}
    {pre fifo : Bool} {f : σ → V → Nat → Except ε σ} {P : σ → Prop}
    {A : List K} {E : Nat}
    (hf : ∀ s v d, P s → ∃ s1, f s v d = Except.ok s1 ∧ P s1)
    (hnext : ∀ s v, P s → (next s v).length ≤ E ∧ ∀ w ∈ next s v, key w ∈ A) :
    ∀ fuel s frontier seen vis, P s →
      (∀ p ∈ frontier, key p.1 ∈ A) →
      (A.filter (fun k => decide (k ∉ seen))).length * (E + 1) +
        frontier.length ≤ fuel →
      ∃ s1 vis1 seen1, walkAux next key pre fifo f fuel s frontier seen vis =
        Except.ok (s1, vis1, seen1, true) := by
  intro fuel
  induction fuel with
  | zero =>
    intro s frontier seen vis hP hfr hle
    cases frontier with
    | nil => exact ⟨s, vis, seen, rfl⟩
    | cons p rest => simp at hle
  | succ n ih =>
    intro s frontier seen vis hP hfr hle
    cases frontier with
    | nil => exact ⟨s, vis, seen, rfl⟩
    | cons p rest =>
      obtain ⟨v, d⟩ := p
      have hvA : key v ∈ A := hfr (v, d) (List.mem_cons_self _ _)
      have hrest : ∀ p ∈ rest, key p.1 ∈ A := fun p hp =>
        hfr p (List.mem_cons_of_mem _ hp)
      by_cases hs : key v ∈ seen
      · have hle' : (A.filter (fun k => decide (k ∉ seen))).length * (E + 1) +
            rest.length ≤ n := by
          simp only [List.length_cons] at hle
          omega
        obtain ⟨s1, vis1, seen1, hrec⟩ := ih s rest seen vis hP hrest hle'
        exact ⟨s1, vis1, seen1, by simp only [walkAux, hs, if_true]; exact hrec⟩
      · obtain ⟨s1, hf1, hP1⟩ := hf s v d hP
        have hcount := length_filter_cons_lt hvA hs
        have harith : ∀ c : Nat, c ≤ E →
            (A.filter (fun k => decide (k ∉ key v :: seen))).length * (E + 1) +
              (rest.length + c) ≤ n := by
          intro c hc
          have hmul : ((A.filter (fun k => decide (k ∉ key v :: seen))).length + 1) *
              (E + 1) ≤ (A.filter (fun k => decide (k ∉ seen))).length * (E + 1) :=
            Nat.mul_le_mul_right _ hcount
          rw [Nat.succ_mul] at hmul
          simp only [List.length_cons] at hle
          omega
        have hfrA : ∀ (s2 : σ), P s2 →
            ∀ p ∈ (if fifo then rest ++ (next s2 v).map (fun w => (w, d + 1))
              else ((next s2 v).map (fun w => (w, d + 1))).reverse ++ rest),
              key p.1 ∈ A := by
          intro s2 hP2 p hp
          rcases mem_pushed hp with hp | hp
          · exact hrest p hp
          · obtain ⟨w, hw', rfl⟩ := List.mem_map.1 hp
            exact (hnext s2 v hP2).2 w hw'
        have hlen : ∀ (s2 : σ), P s2 →
            (if fifo then rest ++ (next s2 v).map (fun w => (w, d + 1))
              else ((next s2 v).map (fun w => (w, d + 1))).reverse ++ rest).length =
              rest.length + (next s2 v).length := by
          intro s2 hP2
          rw [length_pushed]
          simp
        cases pre
        · obtain ⟨s3, vis3, seen3, hrec⟩ := ih s1 _ (key v :: seen)
            (vis ++ [(v, d)]) hP1 (hfrA s1 hP1)
            (by rw [hlen s1 hP1]; exact harith _ (hnext s1 v hP1).1)
          refine ⟨s3, vis3, seen3, ?_⟩
          simp only [walkAux, hs, if_false, Bool.false_eq_true, ite_false, hf1]
          exact hrec
        · obtain ⟨s3, vis3, seen3, hrec⟩ := ih s1 _ (key v :: seen)
            (vis ++ [(v, d)]) hP1 (hfrA s hP)
            (by rw [hlen s hP]; exact harith _ (hnext s v hP).1)
          refine ⟨s3, vis3, seen3, ?_⟩
          simp only [walkAux, hs, if_false, if_true, ite_true, hf1]
          exact hrec

theorem mem_pushed_left {fifo : Bool} {rest c : List α} {p : α}
    (h : p ∈ rest) : p ∈ (if fifo then rest ++ c else c.reverse ++ rest) := by
  cases fifo <;> simp [h]

theorem mem_pushed_right {fifo : Bool} {rest c : List α} {p : α}
    (h : p ∈ c) : p ∈ (if fifo then rest ++ c else c.reverse ++ rest) := by
  cases fifo <;> simp [h]

/-- Final-state facts of a completed walk over a fixed adjacency function:
the accumulators only grow, every frontier entry ends up seen, the adjacency
of every new visit ends up seen, and every new seen key stems from a visit. -/
theorem walkAux_closure [DecidableEq K] {N : V → List V} {key : V → K}
    {pre fifo : Bool} {f : σ → V → Nat → Except ε σ} :
    ∀ fuel s frontier seen vis {s1 vis1 seen1},
      walkAux (fun _ v => N v) key pre fifo f fuel s frontier seen vis =
        Except.ok (s1, vis1, seen1, true) →
      (∀ p ∈ vis, p ∈ vis1) ∧
      (∀ k ∈ seen, k ∈ seen1) ∧
      (∀ p ∈ frontier, key p.1 ∈ seen1) ∧
      (∀ p ∈ vis1, p ∉ vis → ∀ w ∈ N p.1, key w ∈ seen1) ∧
      (∀ k ∈ seen1, k ∈ seen ∨ ∃ p ∈ vis1, key p.1 = k) := by
  intro fuel
  induction fuel with
  | zero =>
    intro s frontier seen vis s1 vis1 seen1 h
    cases frontier with
    | nil =>
      simp only [walkAux, Except.ok.injEq, Prod.mk.injEq] at h
      obtain ⟨-, hv, hn, -⟩ := h
      subst hv; subst hn
      exact ⟨fun p hp => hp, fun k hk => hk, by simp,
        fun p _ hp' => absurd (by assumption) hp', fun k hk => Or.inl hk⟩
    | cons p rest =>
      obtain ⟨v, d⟩ := p
      simp only [walkAux, Except.ok.injEq, Prod.mk.injEq] at h
      exact absurd h.2.2.2 Bool.false_ne_true
  | succ n ih =>
    intro s frontier seen vis s1 vis1 seen1 h
    cases frontier with
    | nil =>
      simp only [walkAux, Except.ok.injEq, Prod.mk.injEq] at h
      obtain ⟨-, hv, hn, -⟩ := h
      subst hv; subst hn
      exact ⟨fun p hp => hp, fun k hk => hk, by simp,
        fun p _ hp' => absurd (by assumption) hp', fun k hk => Or.inl hk⟩
    | cons q rest =>
      obtain ⟨v, d⟩ := q
      by_cases hs : key v ∈ seen
      · simp only [walkAux, hs, if_true] at h
        obtain ⟨c1, c2, c3, c4, c5⟩ := ih _ _ _ _ h
        refine ⟨c1, c2, ?_, c4, c5⟩
        intro p hp
        rcases List.mem_cons.1 hp with rfl | hp'
        · exact c2 _ hs
        · exact c3 p hp'
      · have main :
            ∀ s0,
              walkAux (fun _ v => N v) key pre fifo f n s0
                (if fifo then rest ++ (N v).map (fun w => (w, d + 1))
                  else ((N v).map (fun w => (w, d + 1))).reverse ++ rest)
                (key v :: seen) (vis ++ [(v, d)]) =
                Except.ok (s1, vis1, seen1, true) →
              (∀ p ∈ vis, p ∈ vis1) ∧
              (∀ k ∈ seen, k ∈ seen1) ∧
              (∀ p ∈ (v, d) :: rest, key p.1 ∈ seen1) ∧
              (∀ p ∈ vis1, p ∉ vis → ∀ w ∈ N p.1, key w ∈ seen1) ∧
              (∀ k ∈ seen1, k ∈ seen ∨ ∃ p ∈ vis1, key p.1 = k) := by
          intro s0 hrec
          obtain ⟨c1, c2, c3, c4, c5⟩ := ih _ _ _ _ hrec
          have hvd1 : (v, d) ∈ vis1 := c1 (v, d) (by simp)
          refine ⟨?_, ?_, ?_, ?_, ?_⟩
          · intro p hp
            exact c1 p (List.mem_append_left _ hp)
          · intro k hk
            exact c2 k (List.mem_cons_of_mem _ hk)
          · intro p hp
            rcases List.mem_cons.1 hp with rfl | hp'
            · exact c2 _ (List.mem_cons_self _ _)
            · exact c3 p (mem_pushed_left hp')
          · intro p hp hpv
            by_cases hp' : p ∈ vis ++ [(v, d)]
            · rcases List.mem_append.1 hp' with hp'' | hp''
              · exact absurd hp'' hpv
              · have hpvd : p = (v, d) := by simpa using hp''
                subst hpvd
                intro w hw
                exact c3 (w, d + 1) (mem_pushed_right (List.mem_map.2 ⟨w, hw, rfl⟩))
            · exact c4 p hp hp'
          · intro k hk
            rcases c5 k hk with hk' | hk'
            · rcases List.mem_cons.1 hk' with rfl | hk''
              · exact Or.inr ⟨(v, d), hvd1, rfl⟩
              · exact Or.inl hk''
            · exact Or.inr hk'
        cases hf1 : f s v d with
        | error e =>
          cases pre <;>
            · simp only [walkAux, hs, if_false, if_true, ite_true, ite_false,
                Bool.false_eq_true, hf1] at h
              exact Except.noConfusion h
        | ok s0 =>
          cases pre
          · simp only [walkAux, hs, if_false, Bool.false_eq_true, ite_false,
              hf1] at h
            exact main s0 h
          · simp only [walkAux, hs, if_false, if_true, ite_true, hf1] at h
            exact main s0 h

/-- A completed walk over a fixed adjacency function, started with empty
accumulators and an injective dedup key, visits every vertex reachable from
the frontier along the adjacency function. -/
theorem walkAux_reach_complete [DecidableEq K] {N : V → List V} {key : V → K}
    {pre fifo : Bool} {f : σ → V → Nat → Except ε σ}
    (hinj : Function.Injective key) {fuel : Nat} {s : σ}
    {frontier : List (V × Nat)} {s1 : σ} {vis1 : List (V × Nat)}
    {seen1 : List K}
    (h : walkAux (fun _ v => N v) key pre fifo f fuel s frontier [] [] =
      Except.ok (s1, vis1, seen1, true))
    (v0 : V) {x : V} (hv0 : ∃ d, (v0, d) ∈ frontier)
    (hreach : Relation.ReflTransGen (fun a b => b ∈ N a) v0 x) :
    x ∈ vis1.map Prod.fst := by
  obtain ⟨-, -, c3, c4, c5⟩ := walkAux_closure _ _ _ _ _ h
  have visited : ∀ y, key y ∈ seen1 → y ∈ vis1.map Prod.fst := by
    intro y hy
    rcases c5 _ hy with hy' | ⟨p, hp, hpk⟩
    · cases hy'
    · have : p.1 = y := hinj hpk
      exact this ▸ List.mem_map.2 ⟨p, hp, rfl⟩
  induction hreach with
  | refl =>
    obtain ⟨d, hd⟩ := hv0
    exact visited v0 (c3 (v0, d) hd)
  | tail hab hbc ihr =>
    rename_i b c
    obtain ⟨p, hp, hpb⟩ := List.mem_map.1 ihr
    have hkey : key c ∈ seen1 := by
      have := c4 p hp (by simp)
      exact this c (hpb ▸ hbc)
    exact visited c hkey

/-! ## Root (claim C2) -/

/-- Zero indegree as reported by the store equals having no incoming edge. -/
theorem upEdges_length_eq_zero_iff [DecidableEq V] {g : Graph V} {v : V} :
    (upEdges g v).length = 0 ↔ ∀ w, (w, v) ∉ g.edges := by
  rw [List.length_eq_zero, List.eq_nil_iff_forall_not_mem]
  constructor
  · intro h w hw
    exact h w (mem_upEdges.2 hw)
  · intro h w hw
    exact h w (mem_upEdges.1 hw)

theorem two_le_length_of_mem {l : List α} {a b : α} (ha : a ∈ l) (hb : b ∈ l)
    (hab : a ≠ b) : 2 ≤ l.length := by
  induction l with
  | nil => cases ha
  | cons c t iht =>
    rcases List.mem_cons.1 ha with rfl | ha'
    · have hb' : b ∈ t := by
        rcases List.mem_cons.1 hb with rfl | hb'
        · exact absurd rfl hab
        · exact hb'
      have := List.length_pos_of_mem hb'
      simp only [List.length_cons]
      omega
    · have := List.length_pos_of_mem ha'
      simp only [List.length_cons]
      omega

/-- **C2.** `Root` returns the unique zero-indegree vertex when exactly one
exists; fails with the no-root error when no vertex has zero incoming edges
(the empty graph included); and fails with the ambiguous-root error reporting
exactly the zero-indegree vertices when more than one exists. -/
theorem root_contract_C2 [DecidableEq V] (g : Graph V)
    (hnd : g.vertices.Nodup) :
    (∀ r, r ∈ g.vertices → (∀ w, (w, r) ∉ g.edges) →
      (∀ v ∈ g.vertices, (∀ w, (w, v) ∉ g.edges) → v = r) →
      Root g = Except.ok r) ∧
    ((∀ v ∈ g.vertices, ∃ w, (w, v) ∈ g.edges) →
      Root g = Except.error RootError.noRoots) ∧
    (∀ v1 v2, v1 ∈ g.vertices → v2 ∈ g.vertices → v1 ≠ v2 →
      (∀ w, (w, v1) ∉ g.edges) → (∀ w, (w, v2) ∉ g.edges) →
      Root g = Except.error (RootError.multipleRoots
        (g.vertices.filter (fun v => decide ((upEdges g v).length = 0)))) ∧
      ∀ v, v ∈ g.vertices.filter (fun v => decide ((upEdges g v).length = 0)) ↔
        v ∈ g.vertices ∧ ∀ w, (w, v) ∉ g.edges) := by
  refine ⟨?_, ?_, ?_⟩
  · intro r hr hr0 huniq
    have hfilter : g.vertices.filter
        (fun v => decide ((upEdges g v).length = 0)) = [r] := by
      have hmem : r ∈ g.vertices.filter
          (fun v => decide ((upEdges g v).length = 0)) :=
        List.mem_filter.2 ⟨hr, decide_eq_true (upEdges_length_eq_zero_iff.2 hr0)⟩
      have hall : ∀ v ∈ g.vertices.filter
          (fun v => decide ((upEdges g v).length = 0)), v = r := by
        intro v hv
        obtain ⟨hv1, hv2⟩ := List.mem_filter.1 hv
        exact huniq v hv1 (upEdges_length_eq_zero_iff.1 (of_decide_eq_true hv2))
      have hndf : (g.vertices.filter
          (fun v => decide ((upEdges g v).length = 0))).Nodup :=
        hnd.filter _
      match hh : g.vertices.filter
          (fun v => decide ((upEdges g v).length = 0)) with
      | [] => rw [hh] at hmem; cases hmem
      | [a] =>
        rw [hh] at hall
        have := hall a (by simp)
        simp [this]
      | a :: b :: t =>
        rw [hh] at hall hndf
        have ha := hall a (by simp)
        have hb := hall b (by simp)
        rw [ha, hb] at hndf
        simp at hndf
    simp only [Root]
    rw [hfilter]
    simp
  · intro hno
    have hfilter : g.vertices.filter
        (fun v => decide ((upEdges g v).length = 0)) = [] := by
      rw [List.filter_eq_nil_iff]
      intro v hv
      simp only [decide_eq_true_eq, upEdges_length_eq_zero_iff]
      intro h0
      obtain ⟨w, hw⟩ := hno v hv
      exact h0 w hw
    simp only [Root]
    rw [hfilter]
    simp
  · intro v1 v2 hv1 hv2 hne h1 h2
    have hm1 : v1 ∈ g.vertices.filter
        (fun v => decide ((upEdges g v).length = 0)) :=
      List.mem_filter.2 ⟨hv1, decide_eq_true (upEdges_length_eq_zero_iff.2 h1)⟩
    have hm2 : v2 ∈ g.vertices.filter
        (fun v => decide ((upEdges g v).length = 0)) :=
      List.mem_filter.2 ⟨hv2, decide_eq_true (upEdges_length_eq_zero_iff.2 h2)⟩
    have hlen := two_le_length_of_mem hm1 hm2 hne
    constructor
    · simp only [Root]
      rw [if_pos (by omega)]
    · intro v
      simp only [List.mem_filter, decide_eq_true_eq, upEdges_length_eq_zero_iff]

/-- Witness for C2 at the spec's examples: the chain A→B→C has root A; two
disjoint edges give the ambiguous-root error listing both sources; the empty
graph gives the no-root error. -/
theorem root_contract_C2_witness :
    Root (⟨[1, 2, 3], [(1, 2), (2, 3)]⟩ : Graph Nat) = Except.ok 1 ∧
    Root (⟨[1, 2, 3, 4], [(1, 2), (3, 4)]⟩ : Graph Nat) =
      Except.error (RootError.multipleRoots [1, 3]) ∧
    Root (⟨[], []⟩ : Graph Nat) = Except.error RootError.noRoots := by
  refine ⟨?_, ?_, ?_⟩
  · refine (root_contract_C2 _ (by decide)).1 1 (by decide) ?_ ?_
    · intro w hw
      simp at hw
    · intro v hv h0
      simp only [List.mem_cons] at hv
      rcases hv with rfl | rfl | hv
      · rfl
      · exact absurd (show ((1 : Nat), (2 : Nat)) ∈
          (⟨[1, 2, 3], [(1, 2), (2, 3)]⟩ : Graph Nat).edges by simp) (h0 1)
      · rcases hv with rfl | hv
        · exact absurd (show ((2 : Nat), (3 : Nat)) ∈
            (⟨[1, 2, 3], [(1, 2), (2, 3)]⟩ : Graph Nat).edges by simp) (h0 2)
        · cases hv
  · have hmain := ((root_contract_C2
      (⟨[1, 2, 3, 4], [(1, 2), (3, 4)]⟩ : Graph Nat)
      (by decide)).2.2 1 3 (by decide) (by decide) (by decide)
      (fun w hw => by simp at hw) (fun w hw => by simp at hw)).1
    rw [hmain]
    rfl
  · exact (root_contract_C2 _ (by decide)).2.1
      (fun v hv => absurd hv (List.not_mem_nil v))

/-! ## Descendants and Ancestors (claims C3 and C10) -/

theorem mem_setAdd [DecidableEq V] {s : List V} {v x : V} :
    x ∈ setAdd s v ↔ x ∈ s ∨ x = v := by
  by_cases h : v ∈ s
  · simp only [setAdd, h, if_true]
    constructor
    · exact Or.inl
    · rintro (hx | rfl)
      · exact hx
      · exact h
  · simp [setAdd, h]

theorem mem_foldl_setAdd [DecidableEq V] (l : List (V × Nat)) :
    ∀ (init : List V) (x : V),
      x ∈ l.foldl (fun s p => setAdd s p.1) init ↔
        x ∈ init ∨ x ∈ l.map Prod.fst := by
  induction l with
  | nil => intro init x; simp
  | cons p t ih =>
    intro init x
    simp only [List.foldl_cons, ih, mem_setAdd, List.map_cons, List.mem_cons]
    tauto

/-- Specialization of the fuel-sufficiency theorem to the standard call
pattern: empty accumulators, `walkFuel`, a pool covering the adjacency
lists, and a frontier drawn from the start list and the pool. -/
theorem walkAux_walkFuel_complete [DecidableEq K] {next : σ → V → List V}
    {key : V → K} {pre fifo : Bool} {f : σ → V → Nat → Except ε σ} {E : Nat}
    {pool : List V}
    (hf : ∀ s v d, ∃ s1, f s v d = Except.ok s1)
    (hlen : ∀ s v, (next s v).length ≤ E)
    (hpool : ∀ s v w, w ∈ next s v → w ∈ pool)
    (start : List V) (s : σ) (frontier : List (V × Nat))
    (hfr : ∀ p ∈ frontier, p.1 ∈ start ∨ p.1 ∈ pool)
    (hflen : frontier.length ≤ start.length) :
    ∃ s1 vis1 seen1,
      walkAux next key pre fifo f (walkFuel key pool E start) s frontier [] [] =
        Except.ok (s1, vis1, seen1, true) := by
  have hA : ∀ p ∈ frontier, key p.1 ∈ ((start ++ pool).map key).dedup := by
    intro p hp
    rw [List.mem_dedup]
    exact List.mem_map.2 ⟨p.1, by
      rcases hfr p hp with h | h
      · exact List.mem_append_left _ h
      · exact List.mem_append_right _ h, rfl⟩
  refine walkAux_complete (P := fun _ => True)
    (A := ((start ++ pool).map key).dedup) (E := E)
    (fun s v d _ => by
      obtain ⟨s1, hs1⟩ := hf s v d
      exact ⟨s1, hs1, trivial⟩)
    (fun s v _ => ⟨hlen s v, fun w hw => by
      rw [List.mem_dedup]
      exact List.mem_map.2 ⟨w, List.mem_append_right _ (hpool s v w hw), rfl⟩⟩)
    _ s frontier [] [] trivial hA ?_
  have hfilter : (((start ++ pool).map key).dedup.filter
      (fun k => decide (k ∉ ([] : List K)))) =
      ((start ++ pool).map key).dedup := by
    rw [List.filter_eq_self]
    intro a _
    simp
  rw [hfilter, walkFuel]
  omega

/-- **C10.** `Descendants` and `Ancestors` always return a nil error: both
are declared fallible, but their internal memo visitor never fails, and the
visitor is the engine's only failure channel. -/
theorem descendants_ancestors_ok_C10 [DecidableEq V] [DecidableEq K]
    (hash : V → K) (g : Graph V) (v : V) :
    (∃ s, Descendants (ε := ε) hash g v = Except.ok s) ∧
    (∃ s, Ancestors (ε := ε) g v = Except.ok s) := by
  constructor
  · obtain ⟨⟨s1, vis1, seen1, b⟩, hout⟩ :=
      @walkAux_isOk V K (List V) ε _ (fun _ w => downEdges g w) hash false false
        (fun s w _d => Except.ok (setAdd s w))
        (fun s w _d => ⟨setAdd s w, rfl⟩)
        (walkFuel hash (g.edges.map Prod.snd) g.edges.length (downEdges g v))
        [] (((downEdges g v).map (fun w => (w, 0))).reverse) [] []
    exact ⟨s1, by simp only [Descendants, DepthFirstWalk, hout]⟩
  · obtain ⟨⟨s1, vis1, seen1, b⟩, hout⟩ :=
      @walkAux_isOk V V (List V) ε _ (fun _ w => upEdges g w) (fun x => x)
        true false (fun s w _d => Except.ok (setAdd s w))
        (fun s w _d => ⟨setAdd s w, rfl⟩)
        (walkFuel (fun x => x) (g.edges.map Prod.fst) g.edges.length (upEdges g v))
        [] (((upEdges g v).map (fun w => (w, 0))).reverse) [] []
    exact ⟨s1, by simp only [Ancestors, ReverseDepthFirstWalk, hout]⟩

/-- The adjacency-step relation of the fixed down-edge function is the edge
relation. -/
theorem downStep_eq_eRel [DecidableEq V] (g : Graph V) :
    (fun a b => b ∈ downEdges g a) = ERel g := by
  funext a b
  exact propext mem_downEdges

/-- **C3.** On an acyclic graph, `Descendants(v)` never contains `v`, every
member is reachable from `v` by a non-empty forward path, and every vertex
reachable from `v` by a non-empty forward path is a member. -/
theorem descendants_spec_C3 [DecidableEq V] (g : Graph V) (v : V)
    (hg : AcyclicG g) :
    v ∉ descendantsSet g v ∧
    ∀ w, w ∈ descendantsSet g v ↔ ReachT g v w := by
  obtain ⟨s1, vis1, seen1, hok⟩ :=
    @walkAux_walkFuel_complete V V (List V) Empty _
      (fun _ w => downEdges g w) (fun x => x) false false
      (fun s w _d => Except.ok (setAdd s w)) g.edges.length
      (g.edges.map Prod.snd)
      (fun s w _d => ⟨setAdd s w, rfl⟩)
      (fun _ w => length_downEdges_le g w)
      (fun _ _ w hw => downEdges_subset_targets hw)
      (downEdges g v) []
      (((downEdges g v).map (fun w => (w, 0))).reverse)
      (by
        intro p hp
        rw [List.mem_reverse] at hp
        obtain ⟨w, hw, rfl⟩ := List.mem_map.1 hp
        exact Or.inl hw)
      (by simp)
  have hset : descendantsSet g v = s1 := by
    simp only [descendantsSet, Descendants, DepthFirstWalk, hok]
  have hfold := walkAux_fold _ _ _ _ _ hok vis1 (by simp)
  have hmem : ∀ x, x ∈ s1 ↔ x ∈ vis1.map Prod.fst := by
    intro x
    rw [hfold, mem_foldl_setAdd]
    simp
  have hsound : ∀ p ∈ vis1, ReachT g v p.1 := by
    refine walkAux_sound (R := ReachT g v)
      (fun y w hy hw => Relation.TransGen.tail hy (mem_downEdges.1 hw))
      _ _ _ _ _ hok ?_ (by simp)
    intro p hp
    rw [List.mem_reverse] at hp
    obtain ⟨w, hw, rfl⟩ := List.mem_map.1 hp
    exact Relation.TransGen.single (mem_downEdges.1 hw)
  have hcomplete : ∀ w, ReachT g v w → w ∈ vis1.map Prod.fst := by
    intro w hw
    obtain ⟨s0, hs0, hreach⟩ := reachT_iff_downEdges.1 hw
    refine walkAux_reach_complete (fun a b h => h) hok s0
      ⟨0, ?_⟩ ?_
    · rw [List.mem_reverse]
      exact List.mem_map.2 ⟨s0, hs0, rfl⟩
    · rw [downStep_eq_eRel]
      exact hreach
  constructor
  · intro hv
    rw [hset] at hv
    obtain ⟨p, hp, hpv⟩ := List.mem_map.1 ((hmem v).1 hv)
    exact hg v (hpv ▸ hsound p hp)
  · intro w
    rw [hset, hmem]
    constructor
    · intro hw
      obtain ⟨p, hp, hpw⟩ := List.mem_map.1 hw
      exact hpw ▸ hsound p hp
    · exact hcomplete w

/-- Witness for C3 at a concrete acyclic diamond graph. -/
theorem descendants_spec_C3_witness :
    AcyclicG (⟨[1, 2, 3, 4],
      [(1, 2), (1, 3), (1, 4), (2, 4), (3, 4), (2, 3)]⟩ : Graph Nat) ∧
    (1 ∉ descendantsSet (⟨[1, 2, 3, 4],
        [(1, 2), (1, 3), (1, 4), (2, 4), (3, 4), (2, 3)]⟩ : Graph Nat) 1 ∧
      ∀ w, w ∈ descendantsSet (⟨[1, 2, 3, 4],
        [(1, 2), (1, 3), (1, 4), (2, 4), (3, 4), (2, 3)]⟩ : Graph Nat) 1 ↔
        ReachT (⟨[1, 2, 3, 4],
          [(1, 2), (1, 3), (1, 4), (2, 4), (3, 4), (2, 3)]⟩ : Graph Nat) 1 w) :=
  have hac : AcyclicG (⟨[1, 2, 3, 4],
      [(1, 2), (1, 3), (1, 4), (2, 4), (3, 4), (2, 3)]⟩ : Graph Nat) :=
    acyclicG_of_rank (fun v => v) (by decide)
  ⟨hac, descendants_spec_C3 _ _ hac⟩

/-! ## Sorting facts -/

theorem insertBy_perm (le : α → α → Bool) (a : α) (l : List α) :
    List.Perm (insertBy le a l) (a :: l) := by
  induction l with
  | nil => simp [insertBy]
  | cons b t ih =>
    by_cases h : le a b
    · simp [insertBy, h]
    · simp only [insertBy, h, Bool.false_eq_true, if_false]
      exact (ih.cons b).trans (List.Perm.swap a b t)

theorem sortBy_perm (le : α → α → Bool) (l : List α) :
    List.Perm (sortBy le l) l := by
  induction l with
  | nil => simp [sortBy]
  | cons a t ih =>
    exact (insertBy_perm le a (sortBy le t)).trans (ih.cons a)

theorem mem_sortBy {le : α → α → Bool} {l : List α} {x : α} :
    x ∈ sortBy le l ↔ x ∈ l :=
  (sortBy_perm le l).mem_iff

theorem length_sortBy (le : α → α → Bool) (l : List α) :
    (sortBy le l).length = l.length :=
  (sortBy_perm le l).length_eq

theorem mem_sortByName {name : V → String} {l : List V} {x : V} :
    x ∈ sortByName name l ↔ x ∈ l :=
  mem_sortBy

theorem length_sortByName (name : V → String) (l : List V) :
    (sortByName name l).length = l.length :=
  length_sortBy _ l

/-! ## Termination and dedup of the walk family (claim C7) -/

/-- **C7.** On every finite graph, cyclic ones included, each of the five
walk variants runs to completion with the stated fuel and invokes the
visitor at most once per dedup key (the hash key for `DepthFirstWalk` and
`BreadthFirstWalk`, the raw vertex for the other three), for any visitor
that does not abort. -/
theorem walks_terminate_dedup_C7 [DecidableEq V] [DecidableEq K]
    (g : Graph V) (start : List V) (hash : V → K) (name : V → String)
    (s : σ) (f : σ → V → Nat → Except ε σ)
    (hf : ∀ s v d, ∃ s1, f s v d = Except.ok s1) :
    (∃ s1 vis1 seen1,
      DepthFirstWalk (fun _ w => downEdges g w) hash
          (walkFuel hash (g.edges.map Prod.snd) g.edges.length start)
          s start f = Except.ok (s1, vis1, seen1, true) ∧
        (vis1.map (fun p => hash p.1)).Nodup) ∧
    (∃ s1 vis1 seen1,
      BreadthFirstWalk (fun _ w => downEdges g w) hash
          (walkFuel hash (g.edges.map Prod.snd) g.edges.length start)
          s start f = Except.ok (s1, vis1, seen1, true) ∧
        (vis1.map (fun p => hash p.1)).Nodup) ∧
    (∃ s1 vis1 seen1,
      ReverseDepthFirstWalk (fun _ w => upEdges g w)
          (walkFuel (fun x => x) (g.edges.map Prod.fst) g.edges.length start)
          s start f = Except.ok (s1, vis1, seen1, true) ∧
        (vis1.map Prod.fst).Nodup) ∧
    (∃ s1 vis1 seen1,
      SortedDepthFirstWalk name (fun _ w => downEdges g w)
          (walkFuel (fun x => x) (g.edges.map Prod.snd) g.edges.length start)
          s start f = Except.ok (s1, vis1, seen1, true) ∧
        (vis1.map Prod.fst).Nodup) ∧
    (∃ s1 vis1 seen1,
      SortedReverseDepthFirstWalk name (fun _ w => upEdges g w)
          (walkFuel (fun x => x) (g.edges.map Prod.fst) g.edges.length start)
          s start f = Except.ok (s1, vis1, seen1, true) ∧
        (vis1.map Prod.fst).Nodup) := by
  have hfrRev : ∀ p ∈ (start.map (fun v => (v, 0))).reverse,
      p.1 ∈ start ∨ p.1 ∈ (g.edges.map Prod.snd) := by
    intro p hp
    rw [List.mem_reverse] at hp
    obtain ⟨w, hw, rfl⟩ := List.mem_map.1 hp
    exact Or.inl hw
  have hfrRev' : ∀ p ∈ (start.map (fun v => (v, 0))).reverse,
      p.1 ∈ start ∨ p.1 ∈ (g.edges.map Prod.fst) := by
    intro p hp
    rw [List.mem_reverse] at hp
    obtain ⟨w, hw, rfl⟩ := List.mem_map.1 hp
    exact Or.inl hw
  have hfrFifo : ∀ p ∈ start.map (fun v => (v, 0)),
      p.1 ∈ start ∨ p.1 ∈ (g.edges.map Prod.snd) := by
    intro p hp
    obtain ⟨w, hw, rfl⟩ := List.mem_map.1 hp
    exact Or.inl hw
  refine ⟨?_, ?_, ?_, ?_, ?_⟩
  · obtain ⟨s1, vis1, seen1, hok⟩ :=
      @walkAux_walkFuel_complete V K σ ε _ (fun _ w => downEdges g w) hash
        false false f g.edges.length (g.edges.map Prod.snd) hf
        (fun _ w => length_downEdges_le g w)
        (fun _ _ w hw => downEdges_subset_targets hw)
        start s ((start.map (fun v => (v, 0))).reverse) hfrRev (by simp)
    obtain ⟨ext, hvis, -, hnd, -⟩ := walkAux_shape _ _ _ _ _ hok
    exact ⟨s1, vis1, seen1, hok, by rw [hvis]; simpa using hnd⟩
  · obtain ⟨s1, vis1, seen1, hok⟩ :=
      @walkAux_walkFuel_complete V K σ ε _ (fun _ w => downEdges g w) hash
        false true f g.edges.length (g.edges.map Prod.snd) hf
        (fun _ w => length_downEdges_le g w)
        (fun _ _ w hw => downEdges_subset_targets hw)
        start s (start.map (fun v => (v, 0))) hfrFifo (by simp)
    obtain ⟨ext, hvis, -, hnd, -⟩ := walkAux_shape _ _ _ _ _ hok
    exact ⟨s1, vis1, seen1, hok, by rw [hvis]; simpa using hnd⟩
  · obtain ⟨s1, vis1, seen1, hok⟩ :=
      @walkAux_walkFuel_complete V V σ ε _ (fun _ w => upEdges g w)
        (fun x => x) true false f g.edges.length (g.edges.map Prod.fst) hf
        (fun _ w => length_upEdges_le g w)
        (fun _ _ w hw => upEdges_subset_sources hw)
        start s ((start.map (fun v => (v, 0))).reverse) hfrRev' (by simp)
    obtain ⟨ext, hvis, -, hnd, -⟩ := walkAux_shape _ _ _ _ _ hok
    exact ⟨s1, vis1, seen1, hok, by rw [hvis]; simpa using hnd⟩
  · obtain ⟨s1, vis1, seen1, hok⟩ :=
      @walkAux_walkFuel_complete V V σ ε _
        (fun s1 v => sortByName name (downEdges g v)) (fun x => x)
        false false f g.edges.length (g.edges.map Prod.snd) hf
        (fun _ w => by rw [length_sortByName]; exact length_downEdges_le g w)
        (fun _ _ w hw => downEdges_subset_targets (mem_sortByName.1 hw))
        start s ((start.map (fun v => (v, 0))).reverse) hfrRev (by simp)
    obtain ⟨ext, hvis, -, hnd, -⟩ := walkAux_shape _ _ _ _ _ hok
    exact ⟨s1, vis1, seen1, hok, by rw [hvis]; simpa using hnd⟩
  · obtain ⟨s1, vis1, seen1, hok⟩ :=
      @walkAux_walkFuel_complete V V σ ε _
        (fun s1 v => sortByName name (upEdges g v)) (fun x => x)
        true false f g.edges.length (g.edges.map Prod.fst) hf
        (fun _ w => by rw [length_sortByName]; exact length_upEdges_le g w)
        (fun _ _ w hw => upEdges_subset_sources (mem_sortByName.1 hw))
        start s ((start.map (fun v => (v, 0))).reverse) hfrRev' (by simp)
    obtain ⟨ext, hvis, -, hnd, -⟩ := walkAux_shape _ _ _ _ _ hok
    exact ⟨s1, vis1, seen1, hok, by rw [hvis]; simpa using hnd⟩

/-- Witness for C7 on a two-vertex cycle (the acyclicity invariant is
violated, yet every walk completes). -/
theorem walks_terminate_dedup_C7_witness :
    (∀ (s : Unit) (v : Nat) (d : Nat),
      ∃ s1, (fun (s : Unit) (_ : Nat) (_ : Nat) =>
        (Except.ok s : Except Unit Unit)) s v d = Except.ok s1) ∧
    ((∃ s1 vis1 seen1,
      DepthFirstWalk (fun _ w => downEdges (⟨[1, 2], [(1, 2), (2, 1)]⟩ : Graph Nat) w) (fun x : Nat => x)
          (walkFuel (fun x : Nat => x) ((⟨[1, 2], [(1, 2), (2, 1)]⟩ : Graph Nat).edges.map Prod.snd)
            (⟨[1, 2], [(1, 2), (2, 1)]⟩ : Graph Nat).edges.length [1])
          () [1] (fun s _ _ => (Except.ok s : Except Unit Unit)) =
        Except.ok (s1, vis1, seen1, true) ∧
        (vis1.map (fun p => p.1)).Nodup) ∧
    (∃ s1 vis1 seen1,
      BreadthFirstWalk (fun _ w => downEdges (⟨[1, 2], [(1, 2), (2, 1)]⟩ : Graph Nat) w) (fun x : Nat => x)
          (walkFuel (fun x : Nat => x) ((⟨[1, 2], [(1, 2), (2, 1)]⟩ : Graph Nat).edges.map Prod.snd)
            (⟨[1, 2], [(1, 2), (2, 1)]⟩ : Graph Nat).edges.length [1])
          () [1] (fun s _ _ => (Except.ok s : Except Unit Unit)) =
        Except.ok (s1, vis1, seen1, true) ∧
        (vis1.map (fun p => p.1)).Nodup) ∧
    (∃ s1 vis1 seen1,
      ReverseDepthFirstWalk (fun _ w => upEdges (⟨[1, 2], [(1, 2), (2, 1)]⟩ : Graph Nat) w)
          (walkFuel (fun x : Nat => x) ((⟨[1, 2], [(1, 2), (2, 1)]⟩ : Graph Nat).edges.map Prod.fst)
            (⟨[1, 2], [(1, 2), (2, 1)]⟩ : Graph Nat).edges.length [1])
          () [1] (fun s _ _ => (Except.ok s : Except Unit Unit)) =
        Except.ok (s1, vis1, seen1, true) ∧
        (vis1.map Prod.fst).Nodup) ∧
    (∃ s1 vis1 seen1,
      SortedDepthFirstWalk (fun n => toString n) (fun _ w => downEdges (⟨[1, 2], [(1, 2), (2, 1)]⟩ : Graph Nat) w)
          (walkFuel (fun x : Nat => x) ((⟨[1, 2], [(1, 2), (2, 1)]⟩ : Graph Nat).edges.map Prod.snd)
            (⟨[1, 2], [(1, 2), (2, 1)]⟩ : Graph Nat).edges.length [1])
          () [1] (fun s _ _ => (Except.ok s : Except Unit Unit)) =
        Except.ok (s1, vis1, seen1, true) ∧
        (vis1.map Prod.fst).Nodup) ∧
    (∃ s1 vis1 seen1,
      SortedReverseDepthFirstWalk (fun n => toString n) (fun _ w => upEdges (⟨[1, 2], [(1, 2), (2, 1)]⟩ : Graph Nat) w)
          (walkFuel (fun x : Nat => x) ((⟨[1, 2], [(1, 2), (2, 1)]⟩ : Graph Nat).edges.map Prod.fst)
            (⟨[1, 2], [(1, 2), (2, 1)]⟩ : Graph Nat).edges.length [1])
          () [1] (fun s _ _ => (Except.ok s : Except Unit Unit)) =
        Except.ok (s1, vis1, seen1, true) ∧
        (vis1.map Prod.fst).Nodup)) :=
  ⟨fun s _ _ => ⟨s, rfl⟩,
    walks_terminate_dedup_C7 (⟨[1, 2], [(1, 2), (2, 1)]⟩ : Graph Nat) [1]
      (fun x => x) (fun n => toString n) () _ (fun s _ _ => ⟨s, rfl⟩)⟩

/-! ## Breadth-first level order (claim C6) -/

theorem pairwise_le_map_const (l : List α) (c : Nat) :
    (l.map (fun _ => c)).Pairwise (fun a b => a ≤ b) := by
  induction l with
  | nil => simp
  | cons a t ih =>
    simp only [List.map_cons, List.pairwise_cons]
    refine ⟨?_, ih⟩
    intro x hx
    obtain ⟨y, -, rfl⟩ := List.mem_map.1 hx
    exact le_refl c

/-- In the queue discipline, the depths of the visit sequence are
non-decreasing: the queue holds at most two consecutive levels at any time. -/
theorem walkAux_fifo_depth_monotone [DecidableEq K] {next : σ → V → List V}
    {key : V → K} {pre : Bool} {f : σ → V → Nat → Except ε σ} :
    ∀ fuel s frontier seen vis {s1 vis1 seen1 b},
      walkAux next key pre true f fuel s frontier seen vis =
        Except.ok (s1, vis1, seen1, b) →
      (vis.map Prod.snd).Pairwise (fun a b => a ≤ b) →
      (∀ x ∈ vis.map Prod.snd, ∀ p ∈ frontier, x ≤ p.2) →
      (frontier.map Prod.snd).Pairwise (fun a b => a ≤ b) →
      (∀ p ∈ frontier, ∀ q ∈ frontier.head?, p.2 ≤ q.2 + 1) →
      (vis1.map Prod.snd).Pairwise (fun a b => a ≤ b) := by
  intro fuel
  induction fuel with
  | zero =>
    intro s frontier seen vis s1 vis1 seen1 b hw h1 h2 h3 h4
    have hv : vis1 = vis := by
      cases frontier with
      | nil =>
        simp only [walkAux, Except.ok.injEq, Prod.mk.injEq] at hw
        exact hw.2.1.symm
      | cons q rest =>
        obtain ⟨v, d⟩ := q
        simp only [walkAux, Except.ok.injEq, Prod.mk.injEq] at hw
        exact hw.2.1.symm
    exact hv ▸ h1
  | succ n ih =>
    intro s frontier seen vis s1 vis1 seen1 b hw h1 h2 h3 h4
    cases frontier with
    | nil =>
      simp only [walkAux, Except.ok.injEq, Prod.mk.injEq] at hw
      exact hw.2.1.symm ▸ h1
    | cons q rest =>
      obtain ⟨v, d⟩ := q
      rw [List.map_cons] at h3
      have hdle : ∀ p ∈ rest, d ≤ p.2 := by
        intro p hp
        exact (List.pairwise_cons.1 h3).1 p.2 (List.mem_map.2 ⟨p, hp, rfl⟩)
      have hble : ∀ p ∈ rest, p.2 ≤ d + 1 := fun p hp =>
        h4 p (List.mem_cons_of_mem _ hp) (v, d) rfl
      have h3rest : (rest.map Prod.snd).Pairwise (fun a b => a ≤ b) :=
        (List.pairwise_cons.1 h3).2
      have h2rest : ∀ x ∈ vis.map Prod.snd, ∀ p ∈ rest, x ≤ p.2 :=
        fun x hx p hp => h2 x hx p (List.mem_cons_of_mem _ hp)
      have h4rest : ∀ p ∈ rest, ∀ q ∈ rest.head?, p.2 ≤ q.2 + 1 := by
        intro p hp q hq
        have hdq : d ≤ q.2 := hdle q (List.mem_of_mem_head? hq)
        have := hble p hp
        omega
      by_cases hs : key v ∈ seen
      · simp only [walkAux, hs, if_true] at hw
        exact ih _ _ _ _ hw h1 h2rest h3rest h4rest
      · -- the visit case: invariants for the recursive call
        have main :
            ∀ s0 s2,
              walkAux next key pre true f n s2
                (rest ++ (next s0 v).map (fun w => (w, d + 1)))
                (key v :: seen) (vis ++ [(v, d)]) =
                Except.ok (s1, vis1, seen1, b) →
              (vis1.map Prod.snd).Pairwise (fun a b => a ≤ b) := by
          intro s0 s2 hrec
          set c := (next s0 v).map (fun w => (w, d + 1)) with hc
          have hcall : ∀ p ∈ c, p.2 = d + 1 := by
            intro p hp
            obtain ⟨w, -, rfl⟩ := List.mem_map.1 hp
            rfl
          have hvd : ∀ x ∈ vis.map Prod.snd, x ≤ d :=
            fun x hx => h2 x hx (v, d) (List.mem_cons_self _ _)
          refine ih _ _ _ _ hrec ?_ ?_ ?_ ?_
          · simp only [List.map_append, List.map_cons, List.map_nil]
            rw [List.pairwise_append]
            exact ⟨h1, List.pairwise_singleton _ _,
              fun x hx y hy => by simp at hy; subst hy; exact hvd x hx⟩
          · intro x hx p hp
            simp only [List.map_append, List.map_cons, List.map_nil,
              List.mem_append, List.mem_cons, List.not_mem_nil, or_false] at hx
            rcases List.mem_append.1 hp with hpr | hpc
            · rcases hx with hxv | hxd
              · exact h2rest x hxv p hpr
              · rw [hxd]
                exact hdle p hpr
            · rw [hcall p hpc]
              rcases hx with hxv | hxd
              · exact le_trans (hvd x hxv) (Nat.le_succ d)
              · rw [hxd]
                exact Nat.le_succ d
          · simp only [List.map_append]
            rw [List.pairwise_append]
            refine ⟨h3rest, ?_, ?_⟩
            · rw [hc, List.map_map]
              exact pairwise_le_map_const _ _
            · intro x hx y hy
              obtain ⟨p, hp, rfl⟩ := List.mem_map.1 hx
              obtain ⟨q, hq, rfl⟩ := List.mem_map.1 hy
              rw [hcall q hq]
              exact hble p hp
          · intro p hp q hq
            have hqm := List.mem_append.1 (List.mem_of_mem_head? hq)
            have hpm := List.mem_append.1 hp
            rcases hqm with hq2 | hq2
            · have hdq : d ≤ q.2 := hdle q hq2
              rcases hpm with hp2 | hp2
              · have := hble p hp2
                omega
              · have := hcall p hp2
                omega
            · have hdq : q.2 = d + 1 := hcall q hq2
              rcases hpm with hp2 | hp2
              · have := hble p hp2
                omega
              · have := hcall p hp2
                omega
        cases hf1 : f s v d with
        | error e =>
          cases pre <;>
            · simp only [walkAux, hs, if_false, if_true, ite_true, ite_false,
                Bool.false_eq_true, hf1] at hw
              exact Except.noConfusion hw
        | ok s2 =>
          cases pre
          · simp only [walkAux, hs, if_false, Bool.false_eq_true, ite_false,
              if_true, hf1] at hw
            exact main s2 s2 hw
          · simp only [walkAux, hs, if_false, if_true, ite_true, hf1] at hw
            exact main s s2 hw

/-- **C6.** `BreadthFirstWalk` never invokes the callback on a vertex at a
larger reported depth before one at a smaller reported depth: the sequence of
reported depths is non-decreasing (so a visit at depth `d` comes after every
visit at depth less than `d`), and every vertex reachable from the start set
is reported.  Stated for any graph and start enumeration, with the
value-identity hash. -/
theorem bfw_level_order_C6 [DecidableEq V] (g : Graph V) (start : List V) :
    ∃ s1 vis1 seen1,
      BreadthFirstWalk (fun _ w => downEdges g w) (fun x : V => x)
          (walkFuel (fun x : V => x) (g.edges.map Prod.snd) g.edges.length start)
          () start (fun s _ _ => (Except.ok s : Except ε Unit)) =
        Except.ok (s1, vis1, seen1, true) ∧
      (vis1.map Prod.snd).Pairwise (fun a b => a ≤ b) ∧
      (∀ i j (hi : i < vis1.length) (hj : j < vis1.length),
        (vis1.get ⟨i, hi⟩).2 < (vis1.get ⟨j, hj⟩).2 → i < j) ∧
      (∀ x, (∃ v0 ∈ start, Reach g v0 x) ↔ x ∈ vis1.map Prod.fst) := by
  obtain ⟨s1, vis1, seen1, hok⟩ :=
    @walkAux_walkFuel_complete V V Unit ε _ (fun _ w => downEdges g w)
      (fun x => x) false true (fun s _ _ => Except.ok s) g.edges.length
      (g.edges.map Prod.snd)
      (fun s _ _ => ⟨s, rfl⟩)
      (fun _ w => length_downEdges_le g w)
      (fun _ _ w hw => downEdges_subset_targets hw)
      start () (start.map (fun v => (v, 0)))
      (by
        intro p hp
        obtain ⟨w, hw, rfl⟩ := List.mem_map.1 hp
        exact Or.inl hw)
      (by simp)
  refine ⟨s1, vis1, seen1, hok, ?_, ?_, ?_⟩
  · refine walkAux_fifo_depth_monotone _ _ _ _ _ hok (by simp) (by simp) ?_ ?_
    · have : (start.map (fun v => (v, 0))).map Prod.snd =
          start.map (fun _ => 0) := by
        rw [List.map_map]
        rfl
      rw [this]
      exact pairwise_le_map_const _ _
    · intro p hp q _
      obtain ⟨w, hw, rfl⟩ := List.mem_map.1 hp
      simp
  · intro i j hi hj hlt
    have hpw := walkAux_fifo_depth_monotone _ _ _ _ _ hok (by simp) (by simp)
      (by
        have : (start.map (fun v => (v, 0))).map Prod.snd =
            start.map (fun _ => 0) := by
          rw [List.map_map]
          rfl
        rw [this]
        exact pairwise_le_map_const _ _)
      (by
        intro p hp q _
        obtain ⟨w, hw, rfl⟩ := List.mem_map.1 hp
        simp)
    by_contra hij
    push_neg at hij
    rcases Nat.lt_or_ge j i with hji | hji
    · have := (List.pairwise_iff_get.1 hpw) ⟨j, by simpa using hj⟩
        ⟨i, by simpa using hi⟩ (by simpa using hji)
      simp only [List.get_eq_getElem, List.getElem_map] at this
      simp only [List.get_eq_getElem] at hlt
      omega
    · have : i = j := le_antisymm hji hij
      subst this
      omega
  · intro x
    constructor
    · rintro ⟨v0, hv0, hreach⟩
      refine walkAux_reach_complete (fun a b h => h) hok v0
        ⟨0, List.mem_map.2 ⟨v0, hv0, rfl⟩⟩ ?_
      rw [downStep_eq_eRel]
      exact hreach
    · intro hx
      obtain ⟨p, hp, rfl⟩ := List.mem_map.1 hx
      have hsound := walkAux_sound
        (R := fun y => ∃ v0 ∈ start, Reach g v0 y)
        (fun y w ⟨v0, hv0, hr⟩ hw =>
          ⟨v0, hv0, hr.tail (mem_downEdges.1 hw)⟩)
        _ _ _ _ _ hok
        (by
          intro q hq
          obtain ⟨w, hw, rfl⟩ := List.mem_map.1 hq
          exact ⟨w, hw, Relation.ReflTransGen.refl⟩)
        (by simp)
      exact hsound p hp

/-! ## Dedup keys of the walk families (claim C8) -/

/-- **C8, counterexample.** The claim says the whole plain walk family
(`DepthFirstWalk`, `BreadthFirstWalk`, `ReverseDepthFirstWalk`) dedups by the
derived hash key, so that of two distinct vertices sharing a hash key a plain
walk visits only one.  `ReverseDepthFirstWalk` refutes this: its seen set is
keyed by the raw vertex value, so on the two-vertex edgeless graph with the
constant hash (both vertices share the key `0`) it visits both vertices. -/
theorem plain_dedup_C8_counterexample :
    (fun _ : Nat => (0 : Nat)) 1 = (fun _ : Nat => (0 : Nat)) 2 ∧
    (1 : Nat) ≠ 2 ∧
    ReverseDepthFirstWalk (fun _ w => upEdges (⟨[1, 2], []⟩ : Graph Nat) w) 4
        () [1, 2] (fun s _ _ => (Except.ok s : Except Unit Unit)) =
      Except.ok ((), [(2, 0), (1, 0)], [1, 2], true) ∧
    (1 : Nat) ∈ [(2, 0), ((1 : Nat), (0 : Nat))].map Prod.fst ∧
    (2 : Nat) ∈ [(2, 0), ((1 : Nat), (0 : Nat))].map Prod.fst :=
  ⟨rfl, by decide, rfl, by decide, by decide⟩

/-- **C8, amended.** `DepthFirstWalk` and `BreadthFirstWalk` dedup visited
vertices by the derived hash key, while `ReverseDepthFirstWalk` and the two
sorted walks dedup by the raw vertex value: every completed-or-truncated
walk visits at most one vertex per hash key for the first two, at most once
per raw value for the other three; and for two distinct vertex values
sharing a hash key, `DepthFirstWalk` and `BreadthFirstWalk` visit only one
of them while `ReverseDepthFirstWalk` and the sorted walks visit both. -/
theorem walk_dedup_keys_C8_amended [DecidableEq V] [DecidableEq K]
    (g : Graph V) (start : List V) (hash : V → K) (name : V → String)
    (fuel : Nat) (s : σ) (f : σ → V → Nat → Except ε σ) :
    (∀ s1 vis1 seen1 b,
      DepthFirstWalk (fun _ w => downEdges g w) hash fuel s start f =
        Except.ok (s1, vis1, seen1, b) →
      (vis1.map (fun p => hash p.1)).Nodup) ∧
    (∀ s1 vis1 seen1 b,
      BreadthFirstWalk (fun _ w => downEdges g w) hash fuel s start f =
        Except.ok (s1, vis1, seen1, b) →
      (vis1.map (fun p => hash p.1)).Nodup) ∧
    (∀ s1 vis1 seen1 b,
      ReverseDepthFirstWalk (fun _ w => upEdges g w) fuel s start f =
        Except.ok (s1, vis1, seen1, b) →
      (vis1.map (fun p => p.1)).Nodup) ∧
    (∀ s1 vis1 seen1 b,
      SortedDepthFirstWalk name (fun _ w => downEdges g w) fuel s start f =
        Except.ok (s1, vis1, seen1, b) →
      (vis1.map (fun p => p.1)).Nodup) ∧
    (∀ s1 vis1 seen1 b,
      SortedReverseDepthFirstWalk name (fun _ w => upEdges g w) fuel s start f =
        Except.ok (s1, vis1, seen1, b) →
      (vis1.map (fun p => p.1)).Nodup) ∧
    (DepthFirstWalk (fun _ w => downEdges (⟨[1, 2], []⟩ : Graph Nat) w)
        (fun _ : Nat => (0 : Nat)) 4 () [1, 2]
        (fun s _ _ => (Except.ok s : Except Unit Unit)) =
      Except.ok ((), [(2, 0)], [0], true)) ∧
    (BreadthFirstWalk (fun _ w => downEdges (⟨[1, 2], []⟩ : Graph Nat) w)
        (fun _ : Nat => (0 : Nat)) 4 () [1, 2]
        (fun s _ _ => (Except.ok s : Except Unit Unit)) =
      Except.ok ((), [(1, 0)], [0], true)) ∧
    (ReverseDepthFirstWalk (fun _ w => upEdges (⟨[1, 2], []⟩ : Graph Nat) w) 4
        () [1, 2] (fun s _ _ => (Except.ok s : Except Unit Unit)) =
      Except.ok ((), [(2, 0), (1, 0)], [1, 2], true)) ∧
    (SortedDepthFirstWalk (fun n => toString n)
        (fun _ w => downEdges (⟨[1, 2], []⟩ : Graph Nat) w) 4 () [1, 2]
        (fun s _ _ => (Except.ok s : Except Unit Unit)) =
      Except.ok ((), [(2, 0), (1, 0)], [1, 2], true)) ∧
    (SortedReverseDepthFirstWalk (fun n => toString n)
        (fun _ w => upEdges (⟨[1, 2], []⟩ : Graph Nat) w) 4 () [1, 2]
        (fun s _ _ => (Except.ok s : Except Unit Unit)) =
      Except.ok ((), [(2, 0), (1, 0)], [1, 2], true)) := by
  refine ⟨?_, ?_, ?_, ?_, ?_, rfl, rfl, rfl, rfl, rfl⟩
  all_goals
    intro s1 vis1 seen1 b hok
    obtain ⟨ext, hvis, -, hnd, -⟩ := walkAux_shape _ _ _ _ _ hok
    rw [hvis]
    simpa using hnd

/-- Witness for the amended C8 discharging its result hypotheses at the
two-vertex edgeless graph with the constant hash. -/
theorem walk_dedup_keys_C8_amended_witness :
    ([((2 : Nat), (0 : Nat))].map
      (fun p => (fun _ : Nat => (0 : Nat)) p.1)).Nodup ∧
    ([((2 : Nat), (0 : Nat)), (1, 0)].map (fun p => p.1)).Nodup :=
  ⟨(walk_dedup_keys_C8_amended (⟨[1, 2], []⟩ : Graph Nat) [1, 2]
      (fun _ : Nat => (0 : Nat)) (fun n => toString n) 4 ()
      (fun s _ _ => (Except.ok s : Except Unit Unit))).1
      () [(2, 0)] [0] true rfl,
    (walk_dedup_keys_C8_amended (⟨[1, 2], []⟩ : Graph Nat) [1, 2]
      (fun _ : Nat => (0 : Nat)) (fun n => toString n) 4 ()
      (fun s _ _ => (Except.ok s : Except Unit Unit))).2.2.1
      () [(2, 0), (1, 0)] [1, 2] true rfl⟩

/-! ## Determinism of the sorted walks (claim C5) -/

theorem strLe_total (s t : List Char) : strLe s t = true ∨ strLe t s = true := by
  induction s generalizing t with
  | nil => exact Or.inl rfl
  | cons a s ih =>
    cases t with
    | nil => exact Or.inr rfl
    | cons b t =>
      by_cases hab : a = b
      · subst hab
        simp only [strLe, if_pos rfl]
        exact ih t
      · have hba : ¬ b = a := fun h => hab h.symm
        simp only [strLe, if_neg hab, if_neg hba, decide_eq_true_eq]
        rcases lt_or_gt_of_ne hab with h | h
        · exact Or.inl h
        · exact Or.inr h

theorem strLe_trans {s t u : List Char} (h1 : strLe s t = true)
    (h2 : strLe t u = true) : strLe s u = true := by
  induction s generalizing t u with
  | nil => rfl
  | cons a s ih =>
    cases t with
    | nil => simp [strLe] at h1
    | cons b t =>
      cases u with
      | nil => simp [strLe] at h2
      | cons c u =>
        by_cases hab : a = b
        · subst hab
          simp only [strLe, if_pos rfl] at h1
          by_cases hbc : a = c
          · subst hbc
            simp only [strLe, if_pos rfl] at h2 ⊢
            exact ih h1 h2
          · simp only [strLe, if_neg hbc] at h2 ⊢
            exact h2
        · simp only [strLe, if_neg hab, decide_eq_true_eq] at h1
          by_cases hbc : b = c
          · subst hbc
            have hac : ¬ a = b := hab
            simp only [strLe, if_neg hac, decide_eq_true_eq]
            exact h1
          · simp only [strLe, if_neg hbc, decide_eq_true_eq] at h2
            have hlt := lt_trans h1 h2
            simp only [strLe, if_neg (ne_of_lt hlt), decide_eq_true_eq]
            exact hlt

theorem strLe_antisymm : ∀ {s t : List Char}, strLe s t = true →
    strLe t s = true → s = t
  | [], [], _, _ => rfl
  | [], _ :: _, _, h2 => by simp [strLe] at h2
  | _ :: _, [], h1, _ => by simp [strLe] at h1
  | a :: s, b :: t, h1, h2 => by
    by_cases hab : a = b
    · subst hab
      simp only [strLe, if_pos rfl] at h1 h2
      rw [strLe_antisymm h1 h2]
    · have hba : ¬ b = a := fun h => hab h.symm
      simp only [strLe, if_neg hab, decide_eq_true_eq] at h1
      simp only [strLe, if_neg hba, decide_eq_true_eq] at h2
      exact absurd h2 (lt_asymm h1)

theorem pairwise_insertBy {le : α → α → Bool}
    (htot : ∀ a b, le a b = true ∨ le b a = true)
    (htr : ∀ a b c, le a b = true → le b c = true → le a c = true)
    (a : α) {l : List α} (h : l.Pairwise (fun x y => le x y = true)) :
    (insertBy le a l).Pairwise (fun x y => le x y = true) := by
  induction l with
  | nil =>
    simp only [insertBy]
    exact List.pairwise_singleton _ _
  | cons b t ih =>
    obtain ⟨hb, ht⟩ := List.pairwise_cons.1 h
    by_cases hab : le a b = true
    · rw [insertBy, if_pos hab]
      refine List.pairwise_cons.2 ⟨?_, h⟩
      intro x hx
      rcases List.mem_cons.1 hx with hxb | hx2
      · rw [hxb]
        exact hab
      · exact htr a b x hab (hb x hx2)
    · rw [insertBy, if_neg hab]
      refine List.pairwise_cons.2 ⟨?_, ih ht⟩
      intro x hx
      have hx2 := (insertBy_perm le a t).mem_iff.1 hx
      rcases List.mem_cons.1 hx2 with hxa | hx3
      · rcases htot a b with h2 | h2
        · exact absurd h2 hab
        · rw [hxa]
          exact h2
      · exact hb x hx3

theorem pairwise_sortBy {le : α → α → Bool}
    (htot : ∀ a b, le a b = true ∨ le b a = true)
    (htr : ∀ a b c, le a b = true → le b c = true → le a c = true)
    (l : List α) :
    (sortBy le l).Pairwise (fun x y => le x y = true) := by
  induction l with
  | nil => simp [sortBy]
  | cons a t ih => exact pairwise_insertBy htot htr a ih

/-- Two le-sorted lists that are permutations of each other and whose
elements are separated by `le` (antisymmetry on the members) are equal. -/
theorem sorted_perm_eq {le : α → α → Bool} :
    ∀ {l1 l2 : List α},
      (∀ a b, a ∈ l1 → b ∈ l1 → le a b = true → le b a = true → a = b) →
      l1.Pairwise (fun x y => le x y = true) →
      l2.Pairwise (fun x y => le x y = true) →
      l1.Perm l2 → l1 = l2
  | [], l2, _, _, _, hp => (hp.nil_eq).symm ▸ rfl
  | a :: t1, l2, hanti, h1, h2, hp => by
    cases l2 with
    | nil => exact absurd hp.symm (by simp)
    | cons b t2 =>
      obtain ⟨ha1, ht1⟩ := List.pairwise_cons.1 h1
      obtain ⟨hb2, ht2⟩ := List.pairwise_cons.1 h2
      have hab : a = b := by
        have hmema : a ∈ b :: t2 := hp.mem_iff.1 (List.mem_cons_self _ _)
        have hmemb : b ∈ a :: t1 := hp.symm.mem_iff.1 (List.mem_cons_self _ _)
        rcases List.mem_cons.1 hmema with h | h
        · exact h
        · rcases List.mem_cons.1 hmemb with h' | h'
          · exact h'.symm
          · exact hanti a b (List.mem_cons_self _ _) hmemb
              (ha1 b h') (hb2 a h)
      subst hab
      have hp' := hp.cons_inv
      have ht1t2 : t1 = t2 :=
        sorted_perm_eq
          (fun x y hx hy => hanti x y (List.mem_cons_of_mem _ hx)
            (List.mem_cons_of_mem _ hy))
          ht1 ht2 hp'
      rw [ht1t2]

/-- With an injective display name, sorting by name is a function of the
underlying multiset: any two enumeration orders sort to the same list. -/
theorem sortByName_eq_of_perm {name : V → String}
    (hinj : Function.Injective name) {l1 l2 : List V}
    (hp : l1.Perm l2) : sortByName name l1 = sortByName name l2 := by
  refine sorted_perm_eq ?_ (pairwise_sortBy ?_ ?_ l1) (pairwise_sortBy ?_ ?_ l2)
    (((sortBy_perm _ l1).trans hp).trans (sortBy_perm _ l2).symm)
  · intro a b _ _ h1 h2
    exact hinj (String.ext (strLe_antisymm h1 h2))
  · intro a b
    exact strLe_total _ _
  · intro a b c
    exact strLe_trans
  · intro a b
    exact strLe_total _ _
  · intro a b c
    exact strLe_trans

theorem downEdges_perm [DecidableEq V] {g1 g2 : Graph V}
    (hp : g1.edges.Perm g2.edges) (v : V) :
    (downEdges g1 v).Perm (downEdges g2 v) :=
  (hp.filter _).map _

/-- **C5.** `SortedDepthFirstWalk` is a pure function of the graph and the
ordered start sequence: the walk result — in particular the emitted sequence
of (vertex, depth) visitor invocations — does not depend on the adjacency
enumeration order.  Enumeration order is modelled by the edge-list order, so
two stores holding the same edge multiset (permuted lists) produce identical
walks; display names injective (ties broken only by name). -/
theorem sorted_dfw_deterministic_C5 [DecidableEq V] (name : V → String)
    (hinj : Function.Injective name) (g1 g2 : Graph V)
    (heperm : g1.edges.Perm g2.edges) (start : List V) (s : σ)
    (f : σ → V → Nat → Except ε σ) :
    SortedDepthFirstWalk name (fun _ w => downEdges g1 w)
        (walkFuel (fun x : V => x) (g1.edges.map Prod.snd) g1.edges.length start)
        s start f =
      SortedDepthFirstWalk name (fun _ w => downEdges g2 w)
        (walkFuel (fun x : V => x) (g2.edges.map Prod.snd) g2.edges.length start)
        s start f := by
  have hnext : (fun (_ : σ) w => sortByName name (downEdges g1 w)) =
      (fun (_ : σ) w => sortByName name (downEdges g2 w)) := by
    funext s1 w
    exact sortByName_eq_of_perm hinj (downEdges_perm heperm w)
  have hfuel : walkFuel (fun x : V => x) (g1.edges.map Prod.snd)
      g1.edges.length start =
      walkFuel (fun x : V => x) (g2.edges.map Prod.snd) g2.edges.length start := by
    simp only [walkFuel]
    rw [heperm.length_eq,
      ((List.Perm.append_left start (heperm.map Prod.snd)).map
        (fun x : V => x)).dedup.length_eq]
  simp only [SortedDepthFirstWalk]
  rw [hnext, hfuel]

/-- Witness for C5: an injective name function and two permuted edge lists
over a concrete graph. -/
theorem sorted_dfw_deterministic_C5_witness :
    Function.Injective (fun n : Nat => (⟨List.replicate n 'a'⟩ : String)) ∧
    (⟨[1, 2, 3], [(1, 2), (1, 3)]⟩ : Graph Nat).edges.Perm
      (⟨[1, 2, 3], [(1, 3), (1, 2)]⟩ : Graph Nat).edges ∧
    SortedDepthFirstWalk (fun n : Nat => (⟨List.replicate n 'a'⟩ : String))
        (fun _ w => downEdges (⟨[1, 2, 3], [(1, 2), (1, 3)]⟩ : Graph Nat) w)
        (walkFuel (fun x : Nat => x)
          ((⟨[1, 2, 3], [(1, 2), (1, 3)]⟩ : Graph Nat).edges.map Prod.snd)
          (⟨[1, 2, 3], [(1, 2), (1, 3)]⟩ : Graph Nat).edges.length [1])
        () [1] (fun s _ _ => (Except.ok s : Except Unit Unit)) =
      SortedDepthFirstWalk (fun n : Nat => (⟨List.replicate n 'a'⟩ : String))
        (fun _ w => downEdges (⟨[1, 2, 3], [(1, 3), (1, 2)]⟩ : Graph Nat) w)
        (walkFuel (fun x : Nat => x)
          ((⟨[1, 2, 3], [(1, 3), (1, 2)]⟩ : Graph Nat).edges.map Prod.snd)
          (⟨[1, 2, 3], [(1, 3), (1, 2)]⟩ : Graph Nat).edges.length [1])
        () [1] (fun s _ _ => (Except.ok s : Except Unit Unit)) := by
  have hinj : Function.Injective
      (fun n : Nat => (⟨List.replicate n 'a'⟩ : String)) := by
    intro a b h
    have := congrArg List.length (congrArg String.data h)
    simpa using this
  exact ⟨hinj, by decide,
    sorted_dfw_deterministic_C5 _ hinj _ _ (by decide) [1] ()
      (fun s _ _ => (Except.ok s : Except Unit Unit))⟩

/-! ## Subgraph flattening (claim C4) -/

/-- **C4.** With both `ConnectSubgraphHeads` and `ConnectSubgraphTails`
enabled, `Marshal` on the outer graph itemOne→itemTwo→S→itemFive (where S
wraps itemThree→itemFour) rewires the edge set to itemOne→itemTwo,
itemTwo→itemThree, itemFour→itemFive; the inner edge itemThree→itemFour is
untouched; and the S vertex is incident to no edge of the rewired graph. -/
theorem marshal_flatten_C4 :
    Marshal subgraphOfMV ⟨true, true⟩ outerMV =
      some ⟨[MV.itemOne, MV.itemTwo, MV.subgraphOne, MV.itemFive,
          MV.itemThree, MV.itemFour],
        [(MV.itemOne, MV.itemTwo), (MV.itemTwo, MV.itemThree),
          (MV.itemFour, MV.itemFive)]⟩ ∧
    innerMV.edges = [(MV.itemThree, MV.itemFour)] ∧
    (∀ e ∈ [(MV.itemOne, MV.itemTwo), (MV.itemTwo, MV.itemThree),
        (MV.itemFour, MV.itemFive)],
      Prod.fst e ≠ MV.subgraphOne ∧ Prod.snd e ≠ MV.subgraphOne) := by
  refine ⟨rfl, rfl, by decide⟩

/-! ## Removing a redundant edge preserves reachability (claims C1, C9) -/

theorem removeEdge_eRel [DecidableEq V] {t : Graph V} {x : V × V} {a b : V} :
    ERel (removeEdge t x) a b ↔ (a, b) ∈ t.edges ∧ (a, b) ≠ x := by
  exact mem_removeEdge_edges

theorem reach_ne_reachT {t : Graph V} {a b : V} (h : Reach t a b)
    (hne : a ≠ b) : ReachT t a b := by
  rcases Relation.ReflTransGen.cases_head h with rfl | ⟨c, hac, hcb⟩
  · exact absurd rfl hne
  · exact Relation.TransGen.head'_iff.2 ⟨c, hac, hcb⟩

/-- A non-empty path whose target is not reachable from `w` never uses the
edge `(u, w)`, so it survives its removal. -/
theorem reachT_avoid_target [DecidableEq V] {t : Graph V} {u w x y : V}
    (hwy : ¬ Reach t w y) (hxy : ReachT t x y) :
    ReachT (removeEdge t (u, w)) x y := by
  induction hxy using Relation.TransGen.head_induction_on with
  | base h =>
    refine Relation.TransGen.single (removeEdge_eRel.2 ⟨h, ?_⟩)
    rintro he
    injection he with h1 h2
    subst h2
    exact hwy Relation.ReflTransGen.refl
  | ih h1 h2 ih =>
    rename_i a c
    refine Relation.TransGen.head (removeEdge_eRel.2 ⟨h1, ?_⟩) ih
    rintro he
    injection he with h3 h4
    subst h4
    exact hwy (h2.to_reflTransGen)

/-- A path that never returns to `u` uses no edge out of `u`, so it survives
removal of `(u, w)`. -/
theorem reach_avoid_source [DecidableEq V] {t : Graph V} {u w x y : V}
    (hxu : ¬ Reach t x u) (hxy : Reach t x y) :
    Reach (removeEdge t (u, w)) x y := by
  induction hxy using Relation.ReflTransGen.head_induction_on with
  | refl => exact Relation.ReflTransGen.refl
  | head h1 h2 ih =>
    rename_i a c
    have hcu : ¬ Reach t c u := fun hr => hxu (Relation.ReflTransGen.head h1 hr)
    refine Relation.ReflTransGen.head (removeEdge_eRel.2 ⟨h1, ?_⟩) (ih hcu)
    rintro he
    injection he with h3 h4
    subst h3
    exact hxu Relation.ReflTransGen.refl

/-- Splicing: once `u` reaches `w` without the removed edge, every original
path survives the removal. -/
theorem reach_removeEdge_of_alt [DecidableEq V] {t : Graph V} {u w : V}
    (halt : Reach (removeEdge t (u, w)) u w) {a b : V} (hab : Reach t a b) :
    Reach (removeEdge t (u, w)) a b := by
  induction hab using Relation.ReflTransGen.head_induction_on with
  | refl => exact Relation.ReflTransGen.refl
  | head h1 h2 ih =>
    rename_i x c
    by_cases hx : (x, c) = (u, w)
    · injection hx with h3 h4
      subst h3
      subst h4
      exact halt.trans ih
    · exact Relation.ReflTransGen.head (removeEdge_eRel.2 ⟨h1, hx⟩) ih

/-- The per-removal core fact: if `v` lies on a non-empty path from `u` and
has a direct edge to `w`, then removing `(u, w)` changes no reachability and
keeps every vertex non-emptily reachable from `u` so. -/
theorem removeEdge_redundant_spec [DecidableEq V] {t : Graph V} {u v w : V}
    (hac : AcyclicG t) (huv : ReachT t u v) (hvw : (v, w) ∈ t.edges) :
    (∀ a b, Reach (removeEdge t (u, w)) a b ↔ Reach t a b) ∧
    (∀ x, ReachT t u x → ReachT (removeEdge t (u, w)) u x) := by
  have hvu : v ≠ u := (reachT_ne hac huv).symm
  have hwv : ¬ Reach t w v := fun hr =>
    hac w (Relation.TransGen.tail'_iff.2 ⟨v, hr, hvw⟩)
  have huv' : ReachT (removeEdge t (u, w)) u v := reachT_avoid_target hwv huv
  have hvw' : (v, w) ∈ (removeEdge t (u, w)).edges :=
    removeEdge_eRel.2 ⟨hvw, fun he => hvu (congrArg Prod.fst he)⟩
  have huw' : ReachT (removeEdge t (u, w)) u w := huv'.tail hvw'
  constructor
  · intro a b
    constructor
    · intro h
      exact reach_mono (fun e he => (mem_removeEdge_edges.1 he).1) h
    · intro h
      exact reach_removeEdge_of_alt huw'.to_reflTransGen h
  · intro x hx
    rcases Relation.TransGen.head'_iff.1 hx with ⟨s0, hus0, hs0x⟩
    by_cases hs0 : s0 = w
    · have hws0 : ¬ Reach t w u := by
        intro hr
        exact hac w (Relation.TransGen.tail'_iff.2 ⟨u, hr, hs0 ▸ hus0⟩)
      have hwx : Reach (removeEdge t (u, w)) w x :=
        reach_avoid_source hws0 (hs0 ▸ hs0x)
      exact huw'.trans_left hwx
    · have hs0u : ¬ Reach t s0 u := by
        intro hr
        exact hac u (Relation.TransGen.head'_iff.2 ⟨s0, hus0, hr⟩)
      have hs0x' : Reach (removeEdge t (u, w)) s0 x :=
        reach_avoid_source hs0u hs0x
      refine Relation.TransGen.head'_iff.2 ⟨s0, removeEdge_eRel.2 ⟨hus0, ?_⟩, hs0x'⟩
      intro he
      exact hs0 (by injection he)

/-! ## The TransitiveReduction state invariant: a filtered edge list -/

theorem removeEdge_filter_form [DecidableEq V] {s s2 : Graph V}
    {q : V × V → Bool} (h : s2.edges = s.edges.filter q) (x : V × V) :
    (removeEdge s2 x).edges =
      s.edges.filter (fun e => decide (e ≠ x) && q e) := by
  simp only [removeEdge, h, List.filter_filter]

theorem foldl_removeEdge_filter_form [DecidableEq V] {s : Graph V} {u : V} :
    ∀ (W : List V) {s2 : Graph V} {q : V × V → Bool},
      s2.edges = s.edges.filter q →
      (∀ e ∈ s.edges, e.1 ≠ u → q e = true) →
      ∃ q2, (W.foldl (fun s1 w => removeEdge s1 (u, w)) s2).edges =
          s.edges.filter q2 ∧
        ∀ e ∈ s.edges, e.1 ≠ u → q2 e = true := by
  intro W
  induction W with
  | nil =>
    intro s2 q h hq
    exact ⟨q, h, hq⟩
  | cons w W ih =>
    intro s2 q h hq
    simp only [List.foldl_cons]
    refine ih (removeEdge_filter_form h (u, w)) ?_
    intro e he hne
    have h1 : decide (e ≠ (u, w)) = true := by
      simp only [decide_eq_true_eq]
      intro hcontra
      exact hne (congrArg Prod.fst hcontra)
    rw [h1, hq e he hne]
    rfl

theorem trVisit_filter_form [DecidableEq V] {s s2 : Graph V}
    {q : V × V → Bool} (u v : V) (h : s2.edges = s.edges.filter q)
    (hq : ∀ e ∈ s.edges, e.1 ≠ u → q e = true) :
    ∃ q2, (trVisit u s2 v).edges = s.edges.filter q2 ∧
      ∀ e ∈ s.edges, e.1 ≠ u → q2 e = true := by
  simp only [trVisit]
  exact foldl_removeEdge_filter_form _ h hq

/-- Removals of edges out of `u` do not disturb the adjacency list of any
other vertex (in-place mutation safety of `TransitiveReduction`). -/
theorem downEdges_filter_eq [DecidableEq V] {s s2 : Graph V}
    {q : V × V → Bool} {v : V} (h : s2.edges = s.edges.filter q)
    (hv : ∀ e ∈ s.edges, e.1 = v → q e = true) :
    downEdges s2 v = downEdges s v := by
  simp only [downEdges, h]
  rw [List.filter_comm]
  congr 1
  rw [List.filter_eq_self]
  intro e he
  obtain ⟨he1, he2⟩ := List.mem_filter.1 he
  exact hv e he1 (of_decide_eq_true he2)

theorem filter_form_subset [DecidableEq V] {s s2 : Graph V}
    {q : V × V → Bool} (h : s2.edges = s.edges.filter q) :
    ∀ e ∈ s2.edges, e ∈ s.edges := by
  intro e he
  rw [h] at he
  exact (List.mem_filter.1 he).1

theorem filter_form_mem [DecidableEq V] {s s2 : Graph V}
    {q : V × V → Bool} (h : s2.edges = s.edges.filter q)
    (hq : ∀ e ∈ s.edges, e.1 ≠ u → q e = true) {e : V × V}
    (he : e ∈ s.edges) (hne : e.1 ≠ u) : e ∈ s2.edges := by
  rw [h]
  exact List.mem_filter.2 ⟨he, hq e he hne⟩

/-- One inner `shared`-removal loop of `TransitiveReduction`: removing the
shared targets keeps the state a non-`u`-preserving filter of the base graph
`s`, preserves all reachability, keeps every `u`-reachable vertex reachable,
justifies each removed edge by a longer path, removes every target in the
list, and only shrinks the edge set. -/
theorem trRemoveFold_spec [DecidableEq V] {s : Graph V} {u v : V}
    (hac : AcyclicG s) (huv : ReachT s u v) :
    ∀ (W : List V) (s2 : Graph V),
      (∀ w ∈ W, (v, w) ∈ s.edges) →
      (∃ q, s2.edges = s.edges.filter q ∧
        ∀ e ∈ s.edges, e.1 ≠ u → q e = true) →
      (∀ a b, Reach s2 a b ↔ Reach s a b) →
      (∀ x, ReachT s u x → ReachT s2 u x) →
      (∀ e ∈ s.edges, e ∉ s2.edges → e.1 = u ∧ RedundantEdge s u e.2) →
      (∃ q, (W.foldl (fun s1 w => removeEdge s1 (u, w)) s2).edges =
          s.edges.filter q ∧ ∀ e ∈ s.edges, e.1 ≠ u → q e = true) ∧
      (∀ a b, Reach (W.foldl (fun s1 w => removeEdge s1 (u, w)) s2) a b ↔
        Reach s a b) ∧
      (∀ x, ReachT s u x →
        ReachT (W.foldl (fun s1 w => removeEdge s1 (u, w)) s2) u x) ∧
      (∀ e ∈ s.edges,
        e ∉ (W.foldl (fun s1 w => removeEdge s1 (u, w)) s2).edges →
        e.1 = u ∧ RedundantEdge s u e.2) ∧
      (∀ w ∈ W, (u, w) ∉
        (W.foldl (fun s1 w => removeEdge s1 (u, w)) s2).edges) ∧
      (∀ e ∈ (W.foldl (fun s1 w => removeEdge s1 (u, w)) s2).edges,
        e ∈ s2.edges) := by
  intro W
  induction W with
  | nil =>
    intro s2 hW hform hreach hpres hjust
    exact ⟨hform, hreach, hpres, hjust, by simp, fun e he => he⟩
  | cons w W ih =>
    intro s2 hW hform hreach hpres hjust
    obtain ⟨q, hq, hqu⟩ := hform
    have hvu : v ≠ u := (reachT_ne hac huv).symm
    have hvw : (v, w) ∈ s.edges := hW w (List.mem_cons_self _ _)
    have hac2 : AcyclicG s2 := acyclicG_mono (filter_form_subset hq) hac
    have huv2 : ReachT s2 u v := hpres v huv
    have hvw2 : (v, w) ∈ s2.edges := filter_form_mem hq hqu hvw hvu
    obtain ⟨hrm_reach, hrm_pres⟩ := removeEdge_redundant_spec hac2 huv2 hvw2
    have hform' : ∃ q2, (removeEdge s2 (u, w)).edges = s.edges.filter q2 ∧
        ∀ e ∈ s.edges, e.1 ≠ u → q2 e = true := by
      refine ⟨fun e => decide (e ≠ (u, w)) && q e,
        removeEdge_filter_form hq (u, w), ?_⟩
      intro e he hne
      have h1 : decide (e ≠ (u, w)) = true := by
        simp only [decide_eq_true_eq]
        intro hcontra
        exact hne (congrArg Prod.fst hcontra)
      show (decide (e ≠ (u, w)) && q e) = true
      rw [h1, hqu e he hne]
      rfl
    have hreach' : ∀ a b, Reach (removeEdge s2 (u, w)) a b ↔ Reach s a b :=
      fun a b => (hrm_reach a b).trans (hreach a b)
    have hpres' : ∀ x, ReachT s u x → ReachT (removeEdge s2 (u, w)) u x :=
      fun x hx => hrm_pres x (hpres x hx)
    have hjust' : ∀ e ∈ s.edges, e ∉ (removeEdge s2 (u, w)).edges →
        e.1 = u ∧ RedundantEdge s u e.2 := by
      intro e he hne
      by_cases he2 : e ∈ s2.edges
      · have : e = (u, w) := by
          by_contra hne2
          exact hne (mem_removeEdge_edges.2 ⟨he2, hne2⟩)
        subst this
        exact ⟨rfl, v, huv, hvw⟩
      · exact hjust e he he2
    simp only [List.foldl_cons]
    obtain ⟨c1, c2, c3, c4, c5, c6⟩ := ih (removeEdge s2 (u, w))
      (fun w' hw' => hW w' (List.mem_cons_of_mem _ hw'))
      hform' hreach' hpres' hjust'
    refine ⟨c1, c2, c3, c4, ?_, ?_⟩
    · intro w' hw'
      rcases List.mem_cons.1 hw' with rfl | hw2
      · intro hmem
        have := c6 _ hmem
        exact (mem_removeEdge_edges.1 this).2 rfl
      · exact c5 w' hw2
    · intro e he
      exact (mem_removeEdge_edges.1 (c6 e he)).1

/-- The outer visit loop of one `trStep`: folding `trVisit` over a list of
`u`-reachable vertices preserves the state invariants and guarantees that
every shared target of a processed vertex is removed as a direct edge of
`u`. -/
theorem trVisitFold_spec [DecidableEq V] {s : Graph V} {u : V}
    (hac : AcyclicG s) :
    ∀ (L : List (V × Nat)) (s2 : Graph V),
      (∀ p ∈ L, ReachT s u p.1) →
      (∃ q, s2.edges = s.edges.filter q ∧
        ∀ e ∈ s.edges, e.1 ≠ u → q e = true) →
      (∀ a b, Reach s2 a b ↔ Reach s a b) →
      (∀ x, ReachT s u x → ReachT s2 u x) →
      (∀ e ∈ s.edges, e ∉ s2.edges → e.1 = u ∧ RedundantEdge s u e.2) →
      (∃ q, (L.foldl (fun s1 p => trVisit u s1 p.1) s2).edges =
          s.edges.filter q ∧ ∀ e ∈ s.edges, e.1 ≠ u → q e = true) ∧
      (∀ a b, Reach (L.foldl (fun s1 p => trVisit u s1 p.1) s2) a b ↔
        Reach s a b) ∧
      (∀ e ∈ s.edges,
        e ∉ (L.foldl (fun s1 p => trVisit u s1 p.1) s2).edges →
        e.1 = u ∧ RedundantEdge s u e.2) ∧
      (∀ p ∈ L, ∀ w, (p.1, w) ∈ s.edges → (u, w) ∈ s.edges →
        (u, w) ∉ (L.foldl (fun s1 p => trVisit u s1 p.1) s2).edges) ∧
      (∀ e ∈ (L.foldl (fun s1 p => trVisit u s1 p.1) s2).edges,
        e ∈ s2.edges) := by
  intro L
  induction L with
  | nil =>
    intro s2 hL hform hreach hpres hjust
    exact ⟨hform, hreach, hjust, by simp, fun e he => he⟩
  | cons p L ih =>
    intro s2 hL hform hreach hpres hjust
    obtain ⟨q, hq, hqu⟩ := hform
    have hup : ReachT s u p.1 := hL p (List.mem_cons_self _ _)
    have hpu : p.1 ≠ u := (reachT_ne hac hup).symm
    have hdown : downEdges s2 p.1 = downEdges s p.1 :=
      downEdges_filter_eq hq (fun e he hev => hqu e he (hev ▸ hpu))
    have hsharedW : ∀ w ∈ (downEdges s2 u).filter
        (fun w => decide (w ∈ downEdges s2 p.1)), (p.1, w) ∈ s.edges := by
      intro w hw
      have := (List.mem_filter.1 hw).2
      rw [hdown] at this
      exact mem_downEdges.1 (of_decide_eq_true this)
    have hstep := trRemoveFold_spec hac hup
      ((downEdges s2 u).filter (fun w => decide (w ∈ downEdges s2 p.1))) s2
      hsharedW ⟨q, hq, hqu⟩ hreach hpres hjust
    obtain ⟨d1, d2, d3, d4, d5, d6⟩ := hstep
    have htv : (trVisit u s2 p.1) =
        ((downEdges s2 u).filter
          (fun w => decide (w ∈ downEdges s2 p.1))).foldl
          (fun s1 w => removeEdge s1 (u, w)) s2 := rfl
    simp only [List.foldl_cons]
    obtain ⟨e1, e2, e3, e4, e5⟩ := ih (trVisit u s2 p.1)
      (fun p' hp' => hL p' (List.mem_cons_of_mem _ hp'))
      (htv ▸ d1) (htv ▸ d2) (htv ▸ d3) (htv ▸ d4)
    refine ⟨e1, e2, e3, ?_, ?_⟩
    · intro p' hp' w hpw huw
      rcases List.mem_cons.1 hp' with rfl | hp2
      · by_cases huw2 : (u, w) ∈ s2.edges
        · have hwshared : w ∈ (downEdges s2 u).filter
              (fun w => decide (w ∈ downEdges s2 p'.1)) := by
            refine List.mem_filter.2 ⟨mem_downEdges.2 huw2, ?_⟩
            rw [hdown]
            exact decide_eq_true (mem_downEdges.2 hpw)
          intro hmem
          exact (htv ▸ d5) w hwshared (e5 _ hmem)
        · intro hmem
          exact huw2 ((htv ▸ d6) _ (e5 _ hmem))
      · exact e4 p' hp2 w hpw huw
    · intro e he
      exact (htv ▸ d6) e (e5 e he)

/-- Characterization of one outer iteration of `TransitiveReduction` (with
the value-identity hash): only edges out of `u` are removed, reachability is
preserved, and the surviving edges out of `u` are exactly the ones with no
longer alternate path in the graph as it stood when the iteration began. -/
theorem trStep_spec [DecidableEq V] (s : Graph V) (u : V) (hac : AcyclicG s) :
    (∀ e ∈ (trStep (fun x : V => x) s u).edges, e ∈ s.edges) ∧
    (∀ e ∈ s.edges, e.1 ≠ u → e ∈ (trStep (fun x : V => x) s u).edges) ∧
    (∀ a b, Reach (trStep (fun x : V => x) s u) a b ↔ Reach s a b) ∧
    (∀ w, (u, w) ∈ (trStep (fun x : V => x) s u).edges ↔
      (u, w) ∈ s.edges ∧ ¬ RedundantEdge s u w) := by
  have hnext : ∀ (s1 : Graph V) (v : V),
      (∃ q, s1.edges = s.edges.filter q ∧
        ∀ e ∈ s.edges, e.1 ≠ u → q e = true) →
      ReachT s u v → downEdges s1 v = downEdges s v := by
    rintro s1 v ⟨q, hq, hqu⟩ hv
    exact downEdges_filter_eq hq (fun e he hev =>
      hqu e he (fun he2 => (reachT_ne hac hv).symm (hev.symm.trans he2)))
  have hf : ∀ (s1 : Graph V) (v : V) (d : Nat) (s2 : Graph V),
      (∃ q, s1.edges = s.edges.filter q ∧
        ∀ e ∈ s.edges, e.1 ≠ u → q e = true) →
      ReachT s u v →
      (fun (s1 : Graph V) (v : V) (_d : Nat) =>
        (Except.ok (trVisit u s1 v) : Except Empty (Graph V))) s1 v d =
        Except.ok s2 →
      ∃ q, s2.edges = s.edges.filter q ∧
        ∀ e ∈ s.edges, e.1 ≠ u → q e = true := by
    rintro s1 v d s2 ⟨q, hq, hqu⟩ hv heq
    have : trVisit u s1 v = s2 := by
      injection heq
    exact this ▸ trVisit_filter_form u v hq hqu
  have hclosed : ∀ v w, ReachT s u v → w ∈ downEdges s v → ReachT s u w :=
    fun v w hv hw => hv.tail (mem_downEdges.1 hw)
  have hP0 : ∃ q, s.edges = s.edges.filter q ∧
      ∀ e ∈ s.edges, e.1 ≠ u → q e = true :=
    ⟨fun _ => true, (List.filter_true _).symm, fun _ _ _ => rfl⟩
  have hfr0 : ∀ p ∈ ((downEdges s u).map (fun v => (v, 0))).reverse,
      ReachT s u p.1 := by
    intro p hp
    rw [List.mem_reverse] at hp
    obtain ⟨w, hw, rfl⟩ := List.mem_map.1 hp
    exact Relation.TransGen.single (mem_downEdges.1 hw)
  have hcong := @walkAux_next_congr V V (Graph V) Empty _
    (fun s1 v => downEdges s1 v) (downEdges s) (fun x => x) false false
    (fun (s1 : Graph V) (v : V) (_d : Nat) =>
      (Except.ok (trVisit u s1 v) : Except Empty (Graph V)))
    (fun s1 => ∃ q, s1.edges = s.edges.filter q ∧
      ∀ e ∈ s.edges, e.1 ≠ u → q e = true)
    (fun v => ReachT s u v) hnext hf hclosed
    (walkFuel (fun x : V => x) (s.edges.map Prod.snd) s.edges.length
      (downEdges s u))
    s (((downEdges s u).map (fun v => (v, 0))).reverse) [] [] hP0 hfr0
  obtain ⟨s3, vis1, seen1, hok⟩ :=
    @walkAux_walkFuel_complete V V (Graph V) Empty _
      (fun _ v => downEdges s v) (fun x => x) false false
      (fun (s1 : Graph V) (v : V) (_d : Nat) =>
        (Except.ok (trVisit u s1 v) : Except Empty (Graph V)))
      s.edges.length (s.edges.map Prod.snd)
      (fun s1 v d => ⟨trVisit u s1 v, rfl⟩)
      (fun _ w => length_downEdges_le s w)
      (fun _ _ w hw => downEdges_subset_targets hw)
      (downEdges s u) s
      (((downEdges s u).map (fun v => (v, 0))).reverse)
      (by
        intro p hp
        rw [List.mem_reverse] at hp
        obtain ⟨w, hw, rfl⟩ := List.mem_map.1 hp
        exact Or.inl hw)
      (by simp)
  have hstep : trStep (fun x : V => x) s u = s3 := by
    simp only [trStep, DepthFirstWalk, hcong, hok]
  have hsound : ∀ p ∈ vis1, ReachT s u p.1 := by
    refine walkAux_sound (R := ReachT s u)
      (fun y w hy hw => hy.tail (mem_downEdges.1 hw))
      _ _ _ _ _ hok hfr0 (by simp)
  have hcomplete : ∀ x, ReachT s u x → x ∈ vis1.map Prod.fst := by
    intro x hx
    obtain ⟨s0, hs0, hreach0⟩ := reachT_iff_downEdges.1 hx
    refine walkAux_reach_complete (fun a b h => h) hok s0
      ⟨0, ?_⟩ ?_
    · rw [List.mem_reverse]
      exact List.mem_map.2 ⟨s0, hs0, rfl⟩
    · rw [downStep_eq_eRel]
      exact hreach0
  have hfold : s3 = vis1.foldl (fun s1 p => trVisit u s1 p.1) s := by
    have := walkAux_fold _ _ _ _ _ hok vis1 (by simp)
    exact this
  obtain ⟨hform, hreach, hjust, hproc, hsub⟩ := trVisitFold_spec hac vis1 s
    hsound
    ⟨fun _ => true, (List.filter_true _).symm, fun _ _ _ => rfl⟩
    (fun a b => Iff.rfl) (fun x hx => hx)
    (fun e he hne => absurd he hne)
  rw [hstep, hfold]
  obtain ⟨q, hq, hqu⟩ := hform
  refine ⟨filter_form_subset hq, fun e he hne => filter_form_mem hq hqu he hne,
    hreach, ?_⟩
  intro w
  constructor
  · intro hmem
    have hmem_s : (u, w) ∈ s.edges := filter_form_subset hq _ hmem
    refine ⟨hmem_s, ?_⟩
    rintro ⟨v, hv, hvw⟩
    obtain ⟨p, hp, hpv⟩ := List.mem_map.1 (hcomplete v hv)
    exact hproc p hp w (hpv ▸ hvw) hmem_s hmem
  · rintro ⟨hmem_s, hnred⟩
    by_contra hnm
    obtain ⟨-, hred⟩ := hjust (u, w) hmem_s hnm
    exact hnred hred

/-- The outer loop of `TransitiveReduction`: folding `trStep` over any
vertex list shrinks the edge set, preserves reachability, and leaves the
out-edges of every processed vertex irredundant. -/
theorem tr_fold_spec [DecidableEq V] {g : Graph V} (hg : AcyclicG g) :
    ∀ (l : List V) (s : Graph V),
      (∀ e ∈ s.edges, e ∈ g.edges) →
      (∀ a b, Reach s a b ↔ Reach g a b) →
      (∀ e ∈ (l.foldl (fun s1 u1 => trStep (fun x : V => x) s1 u1) s).edges,
        e ∈ s.edges) ∧
      (∀ a b, Reach (l.foldl (fun s1 u1 => trStep (fun x : V => x) s1 u1) s) a b ↔
        Reach g a b) ∧
      (∀ u ∈ l, ∀ w,
        (u, w) ∈ (l.foldl (fun s1 u1 => trStep (fun x : V => x) s1 u1) s).edges →
        ¬ RedundantEdge (l.foldl (fun s1 u1 => trStep (fun x : V => x) s1 u1) s)
          u w) := by
  intro l
  induction l with
  | nil =>
    intro s hsub hreach
    exact ⟨fun e he => he, hreach, by simp⟩
  | cons u l ih =>
    intro s hsub hreach
    have hacs : AcyclicG s := acyclicG_mono hsub hg
    obtain ⟨t1, t2, t3, t4⟩ := trStep_spec s u hacs
    simp only [List.foldl_cons]
    obtain ⟨i1, i2, i3⟩ := ih (trStep (fun x : V => x) s u)
      (fun e he => hsub e (t1 e he))
      (fun a b => (t3 a b).trans (hreach a b))
    refine ⟨fun e he => t1 e (i1 e he), i2, ?_⟩
    intro u0 hu0 w hmem hred
    rcases List.mem_cons.1 hu0 with rfl | hu0l
    · have hmem' : (u0, w) ∈ (trStep (fun x : V => x) s u0).edges :=
        i1 _ hmem
      have hnred := ((t4 w).1 hmem').2
      obtain ⟨v, hv, hvw⟩ := hred
      exact hnred ⟨v,
        reachT_mono (fun e he => t1 e (i1 e he)) hv,
        t1 _ (i1 _ hvw)⟩
    · exact i3 u0 hu0l w hmem hred

/-- Full characterization of `TransitiveReduction` on a well-formed acyclic
graph: the result is a reachability-preserving edge subset in which no edge
whose source is a stored vertex is redundant. -/
theorem tr_spec [DecidableEq V] (g : Graph V) (hg : AcyclicG g)
    (hwf : ∀ e ∈ g.edges, e.1 ∈ g.vertices) :
    (∀ e ∈ (TransitiveReduction (fun x : V => x) g).edges, e ∈ g.edges) ∧
    (∀ a b, Reach (TransitiveReduction (fun x : V => x) g) a b ↔ Reach g a b) ∧
    (∀ u w, (u, w) ∈ (TransitiveReduction (fun x : V => x) g).edges →
      ¬ RedundantEdge (TransitiveReduction (fun x : V => x) g) u w) := by
  obtain ⟨h1, h2, h3⟩ := tr_fold_spec hg g.vertices g
    (fun e he => he) (fun a b => Iff.rfl)
  refine ⟨h1, h2, ?_⟩
  intro u w hmem
  exact h3 u (hwf (u, w) (h1 _ hmem)) w hmem

/-- Redundancy of a present edge is the same as a non-empty alternate path
avoiding the edge itself (that is, a path in the graph with the edge
removed). -/
theorem redundant_iff_reachT_removeEdge [DecidableEq V] {s : Graph V}
    {u w : V} (hac : AcyclicG s) (huw : (u, w) ∈ s.edges) :
    RedundantEdge s u w ↔ ReachT (removeEdge s (u, w)) u w := by
  constructor
  · rintro ⟨v, hv, hvw⟩
    have hwv : ¬ Reach s w v := fun hr =>
      hac w (Relation.TransGen.tail'_iff.2 ⟨v, hr, hvw⟩)
    have hvu : v ≠ u := (reachT_ne hac hv).symm
    exact (reachT_avoid_target hwv hv).tail
      (removeEdge_eRel.2 ⟨hvw, fun he => hvu (congrArg Prod.fst he)⟩)
  · intro h
    obtain ⟨v, huv, hvw⟩ := Relation.TransGen.tail'_iff.1 h
    obtain ⟨hvw_s, hvw_ne⟩ := removeEdge_eRel.1 hvw
    have hvu : v ≠ u := by
      rintro rfl
      exact hvw_ne rfl
    refine ⟨v, ?_, hvw_s⟩
    have : ReachT (removeEdge s (u, w)) u v :=
      reach_ne_reachT huv (fun he => hvu he.symm)
    exact reachT_mono (fun e he => (mem_removeEdge_edges.1 he).1) this

/-- **C1.** After `TransitiveReduction` (value-identity hash) on an acyclic
graph whose edge sources are stored vertices: every remaining edge `(u, w)`
admits no alternate path from `u` to `w` through the other remaining edges,
and reachability between every pair of vertices is exactly as before the
reduction. -/
theorem transitive_reduction_C1 [DecidableEq V] (g : Graph V)
    (hg : AcyclicG g) (hwf : ∀ e ∈ g.edges, e.1 ∈ g.vertices) :
    (∀ u w, (u, w) ∈ (TransitiveReduction (fun x : V => x) g).edges →
      ¬ ReachT (removeEdge (TransitiveReduction (fun x : V => x) g) (u, w))
        u w) ∧
    (∀ a b, Reach (TransitiveReduction (fun x : V => x) g) a b ↔
      Reach g a b) := by
  obtain ⟨h1, h2, h3⟩ := tr_spec g hg hwf
  refine ⟨?_, h2⟩
  intro u w hmem halt
  have hact : AcyclicG (TransitiveReduction (fun x : V => x) g) :=
    acyclicG_mono h1 hg
  exact h3 u w hmem ((redundant_iff_reachT_removeEdge hact hmem).2 halt)

/-- Witness for C1 at a concrete acyclic diamond graph with a redundant
edge. -/
theorem transitive_reduction_C1_witness :
    AcyclicG (⟨[1, 2, 3, 4],
      [(1, 2), (1, 3), (1, 4), (2, 4), (3, 4), (2, 3)]⟩ : Graph Nat) ∧
    (∀ e ∈ (⟨[1, 2, 3, 4],
        [(1, 2), (1, 3), (1, 4), (2, 4), (3, 4), (2, 3)]⟩ : Graph Nat).edges,
      e.1 ∈ (⟨[1, 2, 3, 4],
        [(1, 2), (1, 3), (1, 4), (2, 4), (3, 4), (2, 3)]⟩ : Graph Nat).vertices) ∧
    ((∀ u w, (u, w) ∈ (TransitiveReduction (fun x : Nat => x)
        (⟨[1, 2, 3, 4],
          [(1, 2), (1, 3), (1, 4), (2, 4), (3, 4), (2, 3)]⟩ : Graph Nat)).edges →
      ¬ ReachT (removeEdge (TransitiveReduction (fun x : Nat => x)
        (⟨[1, 2, 3, 4],
          [(1, 2), (1, 3), (1, 4), (2, 4), (3, 4), (2, 3)]⟩ : Graph Nat)) (u, w))
        u w) ∧
    (∀ a b, Reach (TransitiveReduction (fun x : Nat => x)
        (⟨[1, 2, 3, 4],
          [(1, 2), (1, 3), (1, 4), (2, 4), (3, 4), (2, 3)]⟩ : Graph Nat)) a b ↔
      Reach (⟨[1, 2, 3, 4],
        [(1, 2), (1, 3), (1, 4), (2, 4), (3, 4), (2, 3)]⟩ : Graph Nat) a b)) :=
  have hac : AcyclicG (⟨[1, 2, 3, 4],
      [(1, 2), (1, 3), (1, 4), (2, 4), (3, 4), (2, 3)]⟩ : Graph Nat) :=
    acyclicG_of_rank (fun v => v) (by decide)
  ⟨hac, by decide, transitive_reduction_C1 _ hac (by decide)⟩

/-- On a graph whose `u`-out-edges are all irredundant, the inner walk of
`trStep` never changes the state: every `shared` intersection is empty. -/
theorem trWalk_noop [DecidableEq V] {s : Graph V} {u : V}
    (hirr : ∀ w, (u, w) ∈ s.edges → ¬ RedundantEdge s u w) :
    ∀ fuel (frontier : List (V × Nat)) (seen : List V) (vis : List (V × Nat)),
      (∀ p ∈ frontier, ReachT s u p.1) →
      ∃ vis1 seen1 b,
        walkAux (fun s1 v => downEdges s1 v) (fun x : V => x) false false
          (fun (s1 : Graph V) (v : V) (_d : Nat) =>
            (Except.ok (trVisit u s1 v) : Except Empty (Graph V)))
          fuel s frontier seen vis = Except.ok (s, vis1, seen1, b) := by
  intro fuel
  induction fuel with
  | zero =>
    intro frontier seen vis hfr
    cases frontier with
    | nil => exact ⟨vis, seen, true, rfl⟩
    | cons p rest => obtain ⟨v, d⟩ := p; exact ⟨vis, seen, false, rfl⟩
  | succ n ih =>
    intro frontier seen vis hfr
    cases frontier with
    | nil => exact ⟨vis, seen, true, rfl⟩
    | cons p rest =>
      obtain ⟨v, d⟩ := p
      have hRv : ReachT s u v := hfr (v, d) (List.mem_cons_self _ _)
      have hrest : ∀ p ∈ rest, ReachT s u p.1 := fun p hp =>
        hfr p (List.mem_cons_of_mem _ hp)
      by_cases hs : (fun x : V => x) v ∈ seen
      · obtain ⟨vis1, seen1, b, hrec⟩ := ih rest seen vis hrest
        exact ⟨vis1, seen1, b, by simp only [walkAux, hs, if_true]; exact hrec⟩
      · have htv : trVisit u s v = s := by
          have hshared : (downEdges s u).filter
              (fun w => decide (w ∈ downEdges s v)) = [] := by
            rw [List.filter_eq_nil_iff]
            intro w hw
            simp only [decide_eq_true_eq]
            intro hwv
            exact hirr w (mem_downEdges.1 hw) ⟨v, hRv, mem_downEdges.1 hwv⟩
          simp only [trVisit, hshared, List.foldl_nil]
        have hchild : ∀ p ∈ ((downEdges s v).map
            (fun w => (w, d + 1))).reverse ++ rest, ReachT s u p.1 := by
          intro p hp
          rcases List.mem_append.1 hp with hp | hp
          · rw [List.mem_reverse] at hp
            obtain ⟨w, hw, rfl⟩ := List.mem_map.1 hp
            exact hRv.tail (mem_downEdges.1 hw)
          · exact hrest p hp
        obtain ⟨vis1, seen1, b, hrec⟩ := ih _ (v :: seen) (vis ++ [(v, d)])
          hchild
        refine ⟨vis1, seen1, b, ?_⟩
        simp only [walkAux, hs, if_false, Bool.false_eq_true, ite_false, htv]
        exact hrec

/-- On a fully irredundant graph, one `trStep` is the identity. -/
theorem trStep_noop [DecidableEq V] {s : Graph V} {u : V}
    (hirr : ∀ w, (u, w) ∈ s.edges → ¬ RedundantEdge s u w) :
    trStep (fun x : V => x) s u = s := by
  obtain ⟨vis1, seen1, b, hok⟩ := trWalk_noop hirr
    (walkFuel (fun x : V => x) (s.edges.map Prod.snd) s.edges.length
      (downEdges s u))
    (((downEdges s u).map (fun v => (v, 0))).reverse) [] []
    (by
      intro p hp
      rw [List.mem_reverse] at hp
      obtain ⟨w, hw, rfl⟩ := List.mem_map.1 hp
      exact Relation.TransGen.single (mem_downEdges.1 hw))
  simp only [trStep, DepthFirstWalk, hok]

/-- **C9.** On an acyclic well-formed graph, running `TransitiveReduction`
(value-identity hash) twice yields exactly the same graph as running it
once: the second run removes nothing. -/
theorem transitive_reduction_idem_C9 [DecidableEq V] (g : Graph V)
    (hg : AcyclicG g) (hwf : ∀ e ∈ g.edges, e.1 ∈ g.vertices) :
    TransitiveReduction (fun x : V => x)
        (TransitiveReduction (fun x : V => x) g) =
      TransitiveReduction (fun x : V => x) g := by
  obtain ⟨h1, h2, h3⟩ := tr_spec g hg hwf
  have hstep : ∀ u1, trStep (fun x : V => x)
      (TransitiveReduction (fun x : V => x) g) u1 =
      TransitiveReduction (fun x : V => x) g :=
    fun u1 => trStep_noop (fun w hw => h3 u1 w hw)
  have hfold : ∀ l : List V,
      l.foldl (fun s1 u1 => trStep (fun x : V => x) s1 u1)
        (TransitiveReduction (fun x : V => x) g) =
      TransitiveReduction (fun x : V => x) g := by
    intro l
    induction l with
    | nil => rfl
    | cons u1 l ih =>
      simp only [List.foldl_cons, hstep u1]
      exact ih
  exact hfold _

/-- Witness for C9 at the concrete diamond graph. -/
theorem transitive_reduction_idem_C9_witness :
    AcyclicG (⟨[1, 2, 3, 4],
      [(1, 2), (1, 3), (1, 4), (2, 4), (3, 4), (2, 3)]⟩ : Graph Nat) ∧
    TransitiveReduction (fun x : Nat => x)
        (TransitiveReduction (fun x : Nat => x)
          (⟨[1, 2, 3, 4],
            [(1, 2), (1, 3), (1, 4), (2, 4), (3, 4), (2, 3)]⟩ : Graph Nat)) =
      TransitiveReduction (fun x : Nat => x)
        (⟨[1, 2, 3, 4],
          [(1, 2), (1, 3), (1, 4), (2, 4), (3, 4), (2, 3)]⟩ : Graph Nat) :=
  have hac : AcyclicG (⟨[1, 2, 3, 4],
      [(1, 2), (1, 3), (1, 4), (2, 4), (3, 4), (2, 3)]⟩ : Graph Nat) :=
    acyclicG_of_rank (fun v => v) (by decide)
  ⟨hac, transitive_reduction_idem_C9 _ hac (by decide)⟩

end Dag
